import Mathlib

/-!
Verification development for the devcontainer-companion repository.

This file gives a shallow embedding, in Lean 4, of the parts of the Go code
that the specification's checked claims are about:

- the ordered JSON serializer (`marshalOrdered`, `writeValue`, `writeObject`,
  `writeArray`, `orderedKeysForMap`) and the key-order tracker
  (`extractKeyOrder` with the `encoding/json` token stream modelled by a
  fueled lexer over the input characters);
- the OCI reference helpers (`ParseOciRef`, `extractCollectionBase`);
- the archive metadata extractor (`extractJSONFromTgz`, `extractItemJSON`);
- the configuration facade (`WriteConfig`);
- the collection-cache concurrency protocol of `FetchCollectionMetadata`,
  modelled as an interleaving step relation for two goroutines.

Modelling conventions: Go byte strings are modelled as Lean `String`
(a list of characters; all byte-level comparisons performed by the code are
on ASCII delimiters, for which character-wise and byte-wise views agree, and
UTF-8 byte order agrees with code-point order for sorting); Go maps
(`map[string]T`) are association lists, looked up by first match, with
Go's unordered iteration followed by `sort.Strings` modelled by sorting the
key list; JSON numbers are modelled as integers rendered in decimal;
fallible operations return `Option`.
-/

/-! ## Data model: generic JSON values and recorded key order -/

/-- Generic JSON value, the model of Go's `any` as produced by
`encoding/json` unmarshalling (`nil`, `bool`, number, `string`, `[]any`,
`map[string]any`). Objects are association lists of fields. -/
inductive JValue where
  | jnull
  | jbool (b : Bool)
  | jnum (n : Int)
  | jstr (s : String)
  | jarr (elems : List JValue)
  | jobj (fields : List (String × JValue))

/-- Model of the Go struct `keyOrder`: recorded object keys in first-seen
order, plus recursively recorded orders for nested objects. -/
inductive KeyOrder where
  | mk (keys : List String) (children : List (String × KeyOrder))

/-- Recorded keys of a `KeyOrder` node. -/
def KeyOrder.keys : KeyOrder → List String
  | .mk ks _ => ks

/-- Recorded children of a `KeyOrder` node (model of `map[string]*keyOrder`). -/
def KeyOrder.children : KeyOrder → List (String × KeyOrder)
  | .mk _ ch => ch

/-- Lookup in an association list by key: the model of Go map indexing. -/
def lookupKV {α : Type} : List (String × α) → String → Option α
  | [], _ => none
  | (k, v) :: rest, key => if k = key then some v else lookupKV rest key

/-- Go map assignment `m[k] = v`: replace the binding if present, else append. -/
def mapSet {α : Type} : List (String × α) → String → α → List (String × α)
  | [], key, v => [(key, v)]
  | (k, w) :: rest, key, v =>
      if k = key then (k, v) :: rest else (k, w) :: mapSet rest key v

/-- Go `m[k]` for a `map[string]any`: a missing key yields `nil`
(serialized as `null`). -/
def lookupD (m : List (String × JValue)) (k : String) : JValue :=
  (lookupKV m k).getD JValue.jnull

/-- The `childOrder` computation of `writeObject`: `nil` order propagates,
otherwise the child order is looked up in `order.children`. -/
def childOrderOf (order : Option KeyOrder) (k : String) : Option KeyOrder :=
  match order with
  | none => none
  | some o => lookupKV o.children k

/-! ## Lexicographic string order and sorting (model of `sort.Strings`) -/

/-- Strict lexicographic order on character lists, comparing code points.
UTF-8 byte-wise comparison (what Go's `sort.Strings` performs) coincides
with code-point-wise comparison, so this models Go string ordering. -/
def charListLt : List Char → List Char → Bool
  | [], [] => false
  | [], _ :: _ => true
  | _ :: _, [] => false
  | a :: as, b :: bs => a.toNat < b.toNat || (a = b && charListLt as bs)

/-- Strict lexicographic order on strings. -/
def strLt (a b : String) : Bool := charListLt a.data b.data

/-- Insert a string into a sorted list, keeping it sorted ascending. -/
def insertSorted (x : String) : List String → List String
  | [] => [x]
  | y :: ys => if strLt y x then y :: insertSorted x ys else x :: y :: ys

/-- Ascending lexicographic sort; model of Go's `sort.Strings` (any correct
sort yields the same list: the sorted permutation is unique because equal
strings are identical). -/
def sortStrings : List String → List String
  | [] => []
  | x :: xs => insertSorted x (sortStrings xs)

/-! ## orderedKeysForMap -/

/-- The key list of an object value, in the order of the association list
(modelling Go's arbitrary map iteration order; it is only ever consumed
through sorting or membership). -/
def keysOf (m : List (String × JValue)) : List String := m.map Prod.fst

/-- Go's `_, exists := m[k]` test. -/
def memKey (m : List (String × JValue)) (k : String) : Bool := (lookupKV m k).isSome

/-- Model of `orderedKeysForMap`: with no prior order, all keys sorted
ascending; with a prior order, first the recorded keys that still exist in
the map (those are also exactly the keys marked `seen`), then the remaining
keys of the map sorted ascending. -/
def orderedKeysForMap (m : List (String × JValue)) (order : Option KeyOrder) : List String :=
  match order with
  | none => sortStrings (keysOf m)
  | some o =>
    let kept := o.keys.filter (fun k => memKey m k)
    let newKeys := sortStrings ((keysOf m).filter (fun k => !(kept.contains k)))
    kept ++ newKeys

/-! ## Scalar rendering (model of `json.Marshal` on scalars) -/

/-- Lowercase hexadecimal digit, as used by `encoding/json` escapes. -/
def hexDigitChar (n : Nat) : Char :=
  if n < 10 then Char.ofNat (48 + n) else Char.ofNat (87 + n)

/-- Escape of one character in a JSON string, following `encoding/json`
(HTML-escaping enabled, its default): `"`, `\`, newline, carriage return and
tab get two-character escapes; other control characters and `<`, `>`, `&`
become `\u00xx`; U+2028/U+2029 become ` `/` `; everything else is
written as-is. -/
def escapeChar (c : Char) : List Char :=
  if c = '"' then ['\\', '"']
  else if c = '\\' then ['\\', '\\']
  else if c = '\n' then ['\\', 'n']
  else if c = '\r' then ['\\', 'r']
  else if c = '\t' then ['\\', 't']
  else if c.toNat < 32 || c = '<' || c = '>' || c = '&' then
    ['\\', 'u', '0', '0', hexDigitChar (c.toNat / 16), hexDigitChar (c.toNat % 16)]
  else if c.toNat = 8232 then ['\\', 'u', '2', '0', '2', '8']
  else if c.toNat = 8233 then ['\\', 'u', '2', '0', '2', '9']
  else [c]

/-- JSON string literal for `s` (model of `json.Marshal` on a string). -/
def jsonQuote (s : String) : String :=
  ⟨'"' :: (s.data.map escapeChar).flatten ++ ['"']⟩

/-- Decimal digits of a natural number, most significant first. -/
def natToDigits (n : Nat) : List Char :=
  if h : n < 10 then [Char.ofNat (48 + n)]
  else natToDigits (n / 10) ++ [Char.ofNat (48 + n % 10)]
decreasing_by exact Nat.div_lt_self (by omega) (by omega)

/-- Decimal rendering of an integer (model of `json.Marshal` on a number;
numbers are modelled as integers). -/
def intToDec (i : Int) : String :=
  if i < 0 then ⟨'-' :: natToDigits i.natAbs⟩ else ⟨natToDigits i.natAbs⟩

/-- Rendering of a scalar value, the model of the `json.Marshal(v)` calls in
`writeValue` and `writeArray` (those sites only ever receive non-container
values; the container branches here are unreachable from the serializer). -/
def writeScalar : JValue → String
  | JValue.jnull => "null"
  | JValue.jbool true => "true"
  | JValue.jbool false => "false"
  | JValue.jnum n => intToDec n
  | JValue.jstr s => jsonQuote s
  | JValue.jarr _ => ""
  | JValue.jobj _ => ""

/-- The `switch v.(type) { case map[string]any, []any: ... }` test of
`writeArray`'s all-primitive check. -/
def isContainer : JValue → Bool
  | JValue.jobj _ => true
  | JValue.jarr _ => true
  | _ => false

/-- Model of `strings.Repeat s n`. -/
def repeatStr (s : String) : Nat → String
  | 0 => ""
  | n + 1 => s ++ repeatStr s n

/-- Go's per-element compact join: elements separated by comma-space. -/
def joinComma : List String → String
  | [] => ""
  | [x] => x
  | x :: rest => x ++ ", " ++ joinComma rest

theorem sizeOf_lookupD (m : List (String × JValue)) (k : String) :
    sizeOf (lookupD m k) ≤ sizeOf m := by
  induction m with
  | nil => simp [lookupD, lookupKV]
  | cons kv rest ih =>
    obtain ⟨k2, v⟩ := kv
    by_cases h : k2 = k
    · simp [lookupD, lookupKV, h]; omega
    · simp only [lookupD, lookupKV, if_neg h]
      have h2 : sizeOf (lookupD rest k) ≤ sizeOf rest := ih
      simp [lookupD] at h2
      simp
      omega

/-! ## The ordered serializer -/

mutual

/-- Model of `writeValue`: objects and arrays dispatch to their writers,
every other value is marshalled as a scalar. -/
def writeValue (value : JValue) (order : Option KeyOrder) (indent : String) (depth : Nat) : String :=
  match value with
  | JValue.jobj m => writeObject m order indent depth
  | JValue.jarr a => writeArray a indent depth
  | v => writeScalar v
termination_by (3 * sizeOf value, 0)

/-- Model of `writeObject`: empty objects render as two braces; otherwise
one key per line in `orderedKeysForMap` order, the child order taken from
`order.children`. -/
def writeObject (m : List (String × JValue)) (order : Option KeyOrder) (indent : String) (depth : Nat) : String :=
  if m.isEmpty then "\x7b\x7d"
  else
    "\x7b\n" ++ writeFields m order (orderedKeysForMap m order) indent depth
      ++ repeatStr indent depth ++ "\x7d"
termination_by (3 * sizeOf m + 2, 0)

/-- The field loop of `writeObject`: for each key, indentation, the quoted
key, `: `, the recursively rendered value, a comma unless last, newline. -/
def writeFields (m : List (String × JValue)) (order : Option KeyOrder) (keys : List String) (indent : String) (depth : Nat) : String :=
  match keys with
  | [] => ""
  | k :: rest =>
      repeatStr indent (depth + 1) ++ jsonQuote k ++ ": "
        ++ writeValue (lookupD m k) (childOrderOf order k) indent (depth + 1)
        ++ (if rest.isEmpty then "" else ",") ++ "\n"
        ++ writeFields m order rest indent depth
termination_by (3 * sizeOf m + 1, keys.length)
decreasing_by
· have h := sizeOf_lookupD m y
  exact Prod.Lex.left _ _ (by omega)
· exact Prod.Lex.right _ (by simp)

/-- Model of `writeArray`: empty renders as two brackets; all-scalar lists
render compactly on one line; otherwise one element per line. -/
def writeArray (arr : List JValue) (indent : String) (depth : Nat) : String :=
  if arr.isEmpty then "[]"
  else if arr.all (fun v => !(isContainer v)) then
    "[" ++ joinComma (arr.map writeScalar) ++ "]"
  else
    "[\n" ++ writeArrayLines arr indent depth ++ repeatStr indent depth ++ "]"
termination_by (3 * sizeOf arr + 2, 0)

/-- The multi-line element loop of `writeArray`: each element is rendered
recursively with a `nil` prior order. -/
def writeArrayLines (arr : List JValue) (indent : String) (depth : Nat) : String :=
  match arr with
  | [] => ""
  | v :: rest =>
      repeatStr indent (depth + 1) ++ writeValue v none indent (depth + 1)
        ++ (if rest.isEmpty then "" else ",") ++ "\n"
        ++ writeArrayLines rest indent depth
termination_by (3 * sizeOf arr + 1, 0)

end

/-- Model of `marshalOrdered`: render with two-space indent at depth zero
and append a single newline. -/
def marshalOrdered (value : JValue) (order : Option KeyOrder) : String :=
  writeValue value order "  " 0 ++ "\n"

/-! ## Order lemmas for the string sort -/

theorem char_eq_iff_toNat (a b : Char) : a = b ↔ a.toNat = b.toNat := by
  constructor
  · intro h; rw [h]
  · intro h
    have hv : a.val = b.val := by
      apply UInt32.ext
      simpa [Char.toNat] using h
    exact Char.ext hv

theorem charListLt_irrefl (l : List Char) : charListLt l l = false := by
  induction l with
  | nil => rfl
  | cons c rest ih => simp [charListLt, ih]

theorem charListLt_trans {a b c : List Char} (h1 : charListLt a b = true)
    (h2 : charListLt b c = true) : charListLt a c = true := by
  induction a generalizing b c with
  | nil =>
    cases b with
    | nil => simp [charListLt] at h1
    | cons b0 bs =>
      cases c with
      | nil => simp [charListLt] at h2
      | cons c0 cs => simp [charListLt]
  | cons a0 as ih =>
    cases b with
    | nil => simp [charListLt] at h1
    | cons b0 bs =>
      cases c with
      | nil => simp [charListLt] at h2
      | cons c0 cs =>
        simp only [charListLt, Bool.or_eq_true, Bool.and_eq_true, decide_eq_true_eq] at h1 h2 ⊢
        rcases h1 with h1 | ⟨hab, h1⟩
        · rcases h2 with h2 | ⟨hbc, h2⟩
          · exact Or.inl (by omega)
          · rw [char_eq_iff_toNat] at hbc
            exact Or.inl (by omega)
        · rcases h2 with h2 | ⟨hbc, h2⟩
          · rw [char_eq_iff_toNat] at hab
            exact Or.inl (by omega)
          · exact Or.inr ⟨hab.trans hbc, ih h1 h2⟩

theorem charListLt_connex {a b : List Char} (h : a ≠ b) :
    charListLt a b = true ∨ charListLt b a = true := by
  induction a generalizing b with
  | nil =>
    cases b with
    | nil => exact absurd rfl h
    | cons b0 bs => exact Or.inl (by simp [charListLt])
  | cons a0 as ih =>
    cases b with
    | nil => exact Or.inr (by simp [charListLt])
    | cons b0 bs =>
      by_cases hc : a0 = b0
      · subst hc
        have hne : as ≠ bs := by intro hh; exact h (by rw [hh])
        rcases ih hne with h1 | h1
        · exact Or.inl (by simp [charListLt, h1])
        · exact Or.inr (by simp [charListLt, h1])
      · rw [char_eq_iff_toNat] at hc
        rcases Nat.lt_or_ge a0.toNat b0.toNat with hlt | hge
        · exact Or.inl (by simp [charListLt]; omega)
        · have : b0.toNat < a0.toNat := by omega
          exact Or.inr (by simp [charListLt]; omega)

theorem charListLt_asymm {a b : List Char} (h : charListLt a b = true) :
    charListLt b a = false := by
  by_contra hcon
  have h2 : charListLt b a = true := by
    cases hh : charListLt b a
    · exact absurd hh hcon
    · rfl
  have := charListLt_trans h h2
  rw [charListLt_irrefl] at this
  exact Bool.false_ne_true this

theorem strLt_asymm {a b : String} (h : strLt a b = true) : strLt b a = false :=
  charListLt_asymm h

theorem strLt_neg_trans {a b c : String} (h1 : strLt b a = false)
    (h2 : strLt c b = false) : strLt c a = false := by
  cases hca : strLt c a with
  | false => rfl
  | true =>
    exfalso
    by_cases hbc : b = c
    · subst hbc
      rw [h1] at hca
      exact Bool.false_ne_true hca
    · have hbc2 : b.data ≠ c.data := by
        intro hh
        apply hbc
        cases b; cases c
        exact congrArg String.mk hh
      rcases charListLt_connex hbc2 with hx | hx
      · have hca2 : charListLt c.data a.data = true := hca
        have hba : charListLt b.data a.data = true := charListLt_trans hx hca2
        have hba2 : strLt b a = true := hba
        rw [h1] at hba2
        exact Bool.false_ne_true hba2
      · have hx2 : strLt c b = true := hx
        rw [h2] at hx2
        exact Bool.false_ne_true hx2

theorem mem_insertSorted (x a : String) (l : List String) :
    a ∈ insertSorted x l ↔ a = x ∨ a ∈ l := by
  induction l with
  | nil => simp [insertSorted]
  | cons y ys ih =>
    by_cases h : strLt y x = true
    · simp [insertSorted, h, ih]
      tauto
    · simp [insertSorted, h]

theorem insertSorted_perm (x : String) (l : List String) :
    (insertSorted x l).Perm (x :: l) := by
  induction l with
  | nil => simp [insertSorted]
  | cons y ys ih =>
    by_cases h : strLt y x = true
    · simp only [insertSorted, h, if_pos]
      exact (ih.cons y).trans (List.Perm.swap x y ys)
    · simp [insertSorted, h]

theorem sortStrings_perm (l : List String) : (sortStrings l).Perm l := by
  induction l with
  | nil => simp [sortStrings]
  | cons x xs ih =>
    exact (insertSorted_perm x (sortStrings xs)).trans (ih.cons x)

theorem mem_sortStrings (a : String) (l : List String) :
    a ∈ sortStrings l ↔ a ∈ l :=
  (sortStrings_perm l).mem_iff

theorem insertSorted_pairwise (x : String) (l : List String)
    (h : List.Pairwise (fun a b => strLt b a = false) l) :
    List.Pairwise (fun a b => strLt b a = false) (insertSorted x l) := by
  induction l with
  | nil => simp [insertSorted]
  | cons y ys ih =>
    rw [List.pairwise_cons] at h
    obtain ⟨hy, hys⟩ := h
    by_cases hcase : strLt y x = true
    · simp only [insertSorted, hcase, if_pos]
      rw [List.pairwise_cons]
      refine ⟨?_, ih hys⟩
      intro a ha
      rw [mem_insertSorted] at ha
      rcases ha with rfl | ha
      · exact strLt_asymm hcase
      · exact hy a ha
    · have hyx : strLt y x = false := by
        cases hh : strLt y x
        · rfl
        · exact absurd hh hcase
      simp only [insertSorted, if_neg hcase]
      rw [List.pairwise_cons]
      constructor
      · intro a ha
        rcases List.mem_cons.mp ha with rfl | ha2
        · exact hyx
        · exact strLt_neg_trans hyx (hy a ha2)
      · rw [List.pairwise_cons]
        exact ⟨hy, hys⟩

theorem sortStrings_pairwise (l : List String) :
    List.Pairwise (fun a b => strLt b a = false) (sortStrings l) := by
  induction l with
  | nil => simp [sortStrings]
  | cons x xs ih => exact insertSorted_pairwise x (sortStrings xs) ih

/-! ## Key membership lemmas -/

theorem lookupKV_isSome_iff {α : Type} (m : List (String × α)) (k : String) :
    (lookupKV m k).isSome = true ↔ k ∈ m.map Prod.fst := by
  induction m with
  | nil => simp [lookupKV]
  | cons kv rest ih =>
    obtain ⟨k2, v⟩ := kv
    by_cases h : k2 = k
    · subst h
      simp [lookupKV]
    · simp only [lookupKV, if_neg h, List.map_cons, List.mem_cons]
      rw [ih]
      constructor
      · exact Or.inr
      · rintro (rfl | hh)
        · exact absurd rfl h
        · exact hh

theorem memKey_iff_mem_keysOf (m : List (String × JValue)) (k : String) :
    memKey m k = true ↔ k ∈ keysOf m :=
  lookupKV_isSome_iff m k

theorem contains_iff_mem (l : List String) (k : String) :
    l.contains k = true ↔ k ∈ l :=
  List.elem_iff

theorem contains_false_iff (l : List String) (k : String) :
    l.contains k = false ↔ k ∉ l := by
  constructor
  · intro h hmem
    rw [(contains_iff_mem l k).mpr hmem] at h
    exact Bool.noConfusion h
  · intro h
    cases hh : l.contains k
    · rfl
    · exact absurd ((contains_iff_mem l k).mp hh) h

theorem kept_contains_eq (m : List (String × JValue)) (o : KeyOrder) (k : String)
    (hk : k ∈ keysOf m) :
    (o.keys.filter (fun k2 => memKey m k2)).contains k = o.keys.contains k := by
  have hm : memKey m k = true := (memKey_iff_mem_keysOf m k).mpr hk
  by_cases ho : k ∈ o.keys
  · have h1 : k ∈ o.keys.filter (fun k2 => memKey m k2) := List.mem_filter.mpr ⟨ho, hm⟩
    rw [(contains_iff_mem _ _).mpr h1, (contains_iff_mem _ _).mpr ho]
  · have h1 : k ∉ o.keys.filter (fun k2 => memKey m k2) := fun hcon =>
      ho (List.mem_filter.mp hcon).1
    rw [(contains_false_iff _ _).mpr h1, (contains_false_iff _ _).mpr ho]

/-- C1: at each object level the serializer first emits the keys of the
prior order that still exist in the map, in exactly the recorded order, then
the map's keys absent from the prior order in ascending lexicographic order;
a recorded key absent from the map never appears; with no prior order, all
keys are emitted in ascending lexicographic order. (`writeObject` emits its
fields exactly in `orderedKeysForMap` order, as the last conjunct records.) -/
theorem c1_serializer_key_order :
    (∀ m, (orderedKeysForMap m none).Perm (keysOf m)
        ∧ List.Pairwise (fun a b => strLt b a = false) (orderedKeysForMap m none))
    ∧ (∀ m o, orderedKeysForMap m (some o) =
          o.keys.filter (fun k => memKey m k)
            ++ sortStrings ((keysOf m).filter (fun k => !(o.keys.contains k)))
        ∧ (sortStrings ((keysOf m).filter (fun k => !(o.keys.contains k)))).Perm
            ((keysOf m).filter (fun k => !(o.keys.contains k)))
        ∧ List.Pairwise (fun a b => strLt b a = false)
            (sortStrings ((keysOf m).filter (fun k => !(o.keys.contains k)))))
    ∧ (∀ m o k, k ∈ o.keys → memKey m k = false → k ∉ orderedKeysForMap m (some o))
    ∧ (∀ m order indent depth, m.isEmpty = false →
        writeObject m order indent depth =
          "\x7b\n" ++ writeFields m order (orderedKeysForMap m order) indent depth
            ++ repeatStr indent depth ++ "\x7d") := by
  refine ⟨?_, ?_, ?_, ?_⟩
  · intro m
    exact ⟨sortStrings_perm (keysOf m), sortStrings_pairwise (keysOf m)⟩
  · intro m o
    have hfc : (keysOf m).filter
          (fun k => !((o.keys.filter (fun k2 => memKey m k2)).contains k))
        = (keysOf m).filter (fun k => !(o.keys.contains k)) :=
      List.filter_congr (fun k hk => by rw [kept_contains_eq m o k hk])
    refine ⟨?_, sortStrings_perm _, sortStrings_pairwise _⟩
    show (o.keys.filter (fun k => memKey m k))
        ++ sortStrings ((keysOf m).filter
            (fun k => !((o.keys.filter (fun k2 => memKey m k2)).contains k))) = _
    rw [hfc]
  · intro m o k hko hmem hcon
    rcases List.mem_append.mp hcon with hc | hc
    · have := (List.mem_filter.mp hc).2
      rw [hmem] at this
      exact Bool.false_ne_true this
    · rw [mem_sortStrings] at hc
      have hkm : k ∈ keysOf m := (List.mem_filter.mp hc).1
      have := (memKey_iff_mem_keysOf m k).mpr hkm
      rw [hmem] at this
      exact Bool.false_ne_true this
  · intro m order indent depth h
    rw [writeObject, if_neg (by rw [h]; exact Bool.false_ne_true)]

theorem c1_serializer_key_order_witness :
    ("gone" ∈ (KeyOrder.mk ["name", "gone", "image"] []).keys
      ∧ memKey [("name", JValue.jnull), ("remoteUser", JValue.jnull), ("image", JValue.jnull)] "gone" = false
      ∧ "gone" ∉ orderedKeysForMap
          [("name", JValue.jnull), ("remoteUser", JValue.jnull), ("image", JValue.jnull)]
          (some (KeyOrder.mk ["name", "gone", "image"] [])))
    ∧ (([("port", JValue.jnum 1)] : List (String × JValue)).isEmpty = false
      ∧ writeObject [("port", JValue.jnum 1)] none "  " 0 =
          "\x7b\n" ++ writeFields [("port", JValue.jnum 1)] none
              (orderedKeysForMap [("port", JValue.jnum 1)] none) "  " 0
            ++ repeatStr "  " 0 ++ "\x7d") := by
  constructor
  · refine ⟨by decide, rfl, ?_⟩
    exact c1_serializer_key_order.2.2.1
      [("name", JValue.jnull), ("remoteUser", JValue.jnull), ("image", JValue.jnull)]
      (KeyOrder.mk ["name", "gone", "image"] []) "gone" (by decide) rfl
  · refine ⟨rfl, ?_⟩
    exact c1_serializer_key_order.2.2.2 [("port", JValue.jnum 1)] none "  " 0 rfl

/-! ## Formatting lemmas for the serializer (claim C3) -/

theorem str_data_append (a b : String) : (a ++ b).data = a.data ++ b.data := rfl

theorem hexDigitChar_ne_newline (k : Nat) (hk : k ≤ 15) : hexDigitChar k ≠ '\n' := by
  unfold hexDigitChar
  by_cases h : k < 10
  · rw [if_pos h]
    interval_cases k <;> decide
  · rw [if_neg h]
    have h2 : 10 ≤ k := by omega
    interval_cases k <;> decide

theorem escapeChar_no_newline (c : Char) : '\n' ∉ escapeChar c := by
  unfold escapeChar
  split_ifs with h1 h2 h3 h4 h5 h6 h7 h8
  · decide
  · decide
  · decide
  · decide
  · decide
  · intro hmem
    have hb : c.toNat < 63 := by
      rcases Bool.or_eq_true _ _ |>.mp h6 with hx | hx
      · rcases Bool.or_eq_true _ _ |>.mp hx with hy | hy
        · rcases Bool.or_eq_true _ _ |>.mp hy with hz | hz
          · simp at hz; omega
          · simp at hz; subst hz; decide
        · simp at hy; subst hy; decide
      · simp at hx; subst hx; decide
    have hdiv : c.toNat / 16 ≤ 15 := by omega
    have hmod : c.toNat % 16 ≤ 15 := by omega
    simp only [List.mem_cons, List.not_mem_nil, or_false] at hmem
    rcases hmem with h | h | h | h | h | h
    all_goals first
      | exact absurd h.symm (by decide)
      | exact absurd h.symm (hexDigitChar_ne_newline _ hdiv)
      | exact absurd h.symm (hexDigitChar_ne_newline _ hmod)
  · decide
  · decide
  · intro hmem
    simp only [List.mem_cons, List.not_mem_nil, or_false] at hmem
    exact h3 hmem.symm

theorem jsonQuote_no_newline (s : String) : '\n' ∉ (jsonQuote s).data := by
  unfold jsonQuote
  intro hmem
  rcases List.mem_cons.mp hmem with h | h
  · exact absurd h (by decide)
  · rcases List.mem_append.mp h with h2 | h2
    · rcases List.mem_flatten.mp h2 with ⟨l, hl, hml⟩
      rcases List.mem_map.mp hl with ⟨c, _, rfl⟩
      exact escapeChar_no_newline c hml
    · exact absurd (List.mem_singleton.mp h2) (by decide)

theorem natToDigits_digits (n : Nat) : ∀ c ∈ natToDigits n, 48 ≤ c.toNat ∧ c.toNat ≤ 57 := by
  induction n using Nat.strong_induction_on with
  | _ n ih =>
    rw [natToDigits]
    by_cases h : n < 10
    · rw [dif_pos h]
      intro c hc
      simp only [List.mem_singleton] at hc
      subst hc
      interval_cases n <;> decide
    · rw [dif_neg h]
      intro c hc
      rcases List.mem_append.mp hc with h2 | h2
      · exact ih (n / 10) (Nat.div_lt_self (by omega) (by omega)) c h2
      · simp only [List.mem_singleton] at h2
        subst h2
        have : n % 10 < 10 := Nat.mod_lt n (by omega)
        set k := n % 10 with hk
        interval_cases k <;> decide

theorem natToDigits_ne_nil (n : Nat) : natToDigits n ≠ [] := by
  rw [natToDigits]
  by_cases h : n < 10
  · rw [dif_pos h]; simp
  · rw [dif_neg h]; simp

theorem intToDec_no_newline (i : Int) : '\n' ∉ (intToDec i).data := by
  unfold intToDec
  have hd := natToDigits_digits i.natAbs
  have h10 : ('\n').toNat = 10 := by decide
  split_ifs with h
  · intro hmem
    rcases List.mem_cons.mp hmem with h2 | h2
    · exact absurd h2 (by decide)
    · have hc := hd _ h2
      omega
  · intro hmem
    have hc := hd _ hmem
    omega

theorem writeScalar_no_newline (v : JValue) : '\n' ∉ (writeScalar v).data := by
  cases v with
  | jnull => decide
  | jbool b => cases b <;> decide
  | jnum n => exact intToDec_no_newline n
  | jstr s => exact jsonQuote_no_newline s
  | jarr a => simp [writeScalar]
  | jobj m => simp [writeScalar]

theorem joinComma_no_newline (l : List String) (h : ∀ s ∈ l, '\n' ∉ s.data) :
    '\n' ∉ (joinComma l).data := by
  induction l with
  | nil => simp [joinComma]
  | cons x rest ih =>
    cases rest with
    | nil =>
      simpa [joinComma] using h x (by simp)
    | cons y ys =>
      intro hmem
      have hmem2 : '\n' ∈ (x.data ++ (", ").data) ++ (joinComma (y :: ys)).data := hmem
      rcases List.mem_append.mp hmem2 with h2 | h2
      · rcases List.mem_append.mp h2 with h3 | h3
        · exact h x (by simp) h3
        · exact absurd h3 (by decide)
      · exact ih (fun s hs => h s (List.mem_cons_of_mem x hs)) h2

theorem str_ext {a b : String} (h : a.data = b.data) : a = b := by
  cases a; cases b; exact congrArg String.mk h

theorem natToDigits_last (n : Nat) :
    ∃ x, x < 10 ∧ (natToDigits n).getLast? = some (Char.ofNat (48 + x)) := by
  rw [natToDigits]
  by_cases h : n < 10
  · rw [dif_pos h]
    exact ⟨n, h, rfl⟩
  · rw [dif_neg h]
    exact ⟨n % 10, Nat.mod_lt n (by omega), List.getLast?_concat _⟩

theorem small_digit_ne_newline (x : Nat) (h : x < 10) : Char.ofNat (48 + x) ≠ '\n' := by
  interval_cases x <;> decide

theorem intToDec_last (i : Int) :
    ∃ c, (intToDec i).data.getLast? = some c ∧ c ≠ '\n' := by
  obtain ⟨x, hx, hl⟩ := natToDigits_last i.natAbs
  unfold intToDec
  split_ifs with h
  · refine ⟨Char.ofNat (48 + x), ?_, small_digit_ne_newline x hx⟩
    show ('-' :: natToDigits i.natAbs).getLast? = _
    cases hne : natToDigits i.natAbs with
    | nil => exact absurd hne (natToDigits_ne_nil _)
    | cons c cs =>
      rw [List.getLast?_cons_cons]
      rw [hne] at hl
      exact hl
  · exact ⟨Char.ofNat (48 + x), hl, small_digit_ne_newline x hx⟩

theorem writeScalar_last (v : JValue) (h : isContainer v = false) :
    ∃ c, (writeScalar v).data.getLast? = some c ∧ c ≠ '\n' := by
  cases v with
  | jnull => exact ⟨'l', by decide, by decide⟩
  | jbool b => cases b <;> exact ⟨'e', by decide, by decide⟩
  | jnum n => exact intToDec_last n
  | jstr s =>
    refine ⟨'"', ?_, by decide⟩
    show ('"' :: ((s.data.map escapeChar).flatten ++ ['"'])).getLast? = _
    rw [← List.cons_append, List.getLast?_concat]
  | jarr a => exact absurd h (by simp [isContainer])
  | jobj m => exact absurd h (by simp [isContainer])

theorem writeValue_last (v : JValue) (o : Option KeyOrder) (ind : String) (d : Nat) :
    ∃ c, (writeValue v o ind d).data.getLast? = some c ∧ c ≠ '\n' := by
  cases v with
  | jobj m =>
    rw [writeValue, writeObject]
    by_cases h : m.isEmpty
    · rw [if_pos h]
      exact ⟨'\x7d', by decide, by decide⟩
    · rw [if_neg h]
      exact ⟨'\x7d', List.getLast?_concat _, by decide⟩
  | jarr a =>
    rw [writeValue, writeArray]
    by_cases h : a.isEmpty
    · rw [if_pos h]
      exact ⟨']', by decide, by decide⟩
    · rw [if_neg h]
      by_cases h2 : a.all (fun v => !(isContainer v))
      · rw [if_pos h2]
        exact ⟨']', List.getLast?_concat _, by decide⟩
      · rw [if_neg h2]
        exact ⟨']', List.getLast?_concat _, by decide⟩
  | jnull =>
    rw [writeValue.eq_def]
    refine ⟨'l', ?_, by decide⟩
    show (writeScalar JValue.jnull).data.getLast? = some 'l'
    decide
  | jbool b =>
    cases b <;> rw [writeValue.eq_def]
    · refine ⟨'e', ?_, by decide⟩
      show (writeScalar (JValue.jbool false)).data.getLast? = some 'e'
      decide
    · refine ⟨'e', ?_, by decide⟩
      show (writeScalar (JValue.jbool true)).data.getLast? = some 'e'
      decide
  | jnum n =>
    rw [writeValue.eq_def]
    exact intToDec_last n
  | jstr s =>
    rw [writeValue.eq_def]
    exact writeScalar_last (JValue.jstr s) (by simp [isContainer])

/-- Join used to state the multi-line array layout: one element per line,
comma after every element but the last. -/
def specJoinLines : List String → String
  | [] => ""
  | [x] => x ++ "\n"
  | x :: rest => x ++ ",\n" ++ specJoinLines rest

theorem writeArrayLines_eq (arr : List JValue) (ind : String) (d : Nat) :
    writeArrayLines arr ind d =
      specJoinLines (arr.map (fun v => repeatStr ind (d + 1) ++ writeValue v none ind (d + 1))) := by
  induction arr with
  | nil => rw [writeArrayLines]; rfl
  | cons v rest ih =>
    cases rest with
    | nil =>
      rw [writeArrayLines]
      apply str_ext
      show (((repeatStr ind (d + 1) ++ writeValue v none ind (d + 1)).data ++ [] ++ ['\n'])
          ++ (writeArrayLines [] ind d).data) = _
      rw [writeArrayLines]
      show _ = (repeatStr ind (d + 1) ++ writeValue v none ind (d + 1)).data ++ ['\n']
      simp
    | cons w ws =>
      rw [writeArrayLines]
      apply str_ext
      show (((repeatStr ind (d + 1) ++ writeValue v none ind (d + 1)).data ++ [','] ++ ['\n'])
          ++ (writeArrayLines (w :: ws) ind d).data) = _
      rw [ih]
      show _ = (repeatStr ind (d + 1) ++ writeValue v none ind (d + 1)).data
          ++ [',', '\n'] ++ (specJoinLines ((w :: ws).map
            (fun v => repeatStr ind (d + 1) ++ writeValue v none ind (d + 1)))).data
      simp

/-- C3: the serializer's output format: two-space indentation per level
(visible in the fixed `"  "` indent threaded by `marshalOrdered` and the
`repeatStr indent (depth + 1)` prefixes of the field and element loops);
empty objects and lists render as bare brace and bracket pairs; an
all-scalar list renders on one line, elements separated by comma-space and
with no newline anywhere; a list containing a container renders one element
per line, each rendered with a `none` prior order; and the output carries
exactly one trailing newline (the rendered body never ends in one). -/
theorem c3_formatting :
    (∀ v o, marshalOrdered v o = writeValue v o "  " 0 ++ "\n")
    ∧ (∀ o ind d, writeObject [] o ind d = "\x7b\x7d")
    ∧ (∀ ind d, writeArray [] ind d = "[]")
    ∧ (∀ arr ind d, arr ≠ [] → arr.all (fun v => !(isContainer v)) = true →
        writeArray arr ind d = "[" ++ joinComma (arr.map writeScalar) ++ "]"
          ∧ '\n' ∉ (writeArray arr ind d).data)
    ∧ (∀ arr ind d, arr ≠ [] → arr.all (fun v => !(isContainer v)) = false →
        writeArray arr ind d =
          "[\n" ++ specJoinLines (arr.map (fun v =>
              repeatStr ind (d + 1) ++ writeValue v none ind (d + 1)))
            ++ repeatStr ind d ++ "]")
    ∧ (∀ v o, (marshalOrdered v o).data = (writeValue v o "  " 0).data ++ ['\n']
        ∧ ∃ c, (writeValue v o "  " 0).data.getLast? = some c ∧ c ≠ '\n') := by
  refine ⟨fun v o => rfl, ?_, ?_, ?_, ?_, ?_⟩
  · intro o ind d
    rw [writeObject]
    rfl
  · intro ind d
    rw [writeArray]
    rfl
  · intro arr ind d hne hall
    have hemp : arr.isEmpty = false := by
      cases arr with
      | nil => exact absurd rfl hne
      | cons a rest => rfl
    have heq : writeArray arr ind d = "[" ++ joinComma (arr.map writeScalar) ++ "]" := by
      rw [writeArray, if_neg (by rw [hemp]; exact Bool.false_ne_true), if_pos hall]
    refine ⟨heq, ?_⟩
    rw [heq]
    intro hmem
    have hmem2 : '\n' ∈ ("[".data ++ (joinComma (arr.map writeScalar)).data) ++ ("]").data := hmem
    rcases List.mem_append.mp hmem2 with h2 | h2
    · rcases List.mem_append.mp h2 with h3 | h3
      · exact absurd h3 (by decide)
      · refine joinComma_no_newline _ ?_ h3
        intro s hs
        rcases List.mem_map.mp hs with ⟨v, _, rfl⟩
        exact writeScalar_no_newline v
    · exact absurd h2 (by decide)
  · intro arr ind d hne hall
    have hemp : arr.isEmpty = false := by
      cases arr with
      | nil => exact absurd rfl hne
      | cons a rest => rfl
    rw [writeArray, if_neg (by rw [hemp]; exact Bool.false_ne_true),
      if_neg (by rw [hall]; exact Bool.false_ne_true), writeArrayLines_eq]
  · intro v o
    exact ⟨rfl, writeValue_last v o "  " 0⟩

theorem c3_formatting_witness :
    writeArray [JValue.jnum 3000, JValue.jnum 8080] "  " 0 = "[3000, 8080]"
    ∧ writeArray [JValue.jobj [("a", JValue.jnull)]] "  " 0
        = "[\n  \x7b\n    \"a\": null\n  \x7d\n]" := by
  constructor
  · have h := (c3_formatting.2.2.2.1 [JValue.jnum 3000, JValue.jnum 8080] "  " 0
      (List.cons_ne_nil _ _) rfl).1
    rw [h]
    apply str_ext
    simp [joinComma, writeScalar, intToDec, natToDigits, str_data_append]
  · have h := c3_formatting.2.2.2.2.1 [JValue.jobj [("a", JValue.jnull)]] "  " 0
      (List.cons_ne_nil _ _) rfl
    rw [h]
    apply str_ext
    simp [specJoinLines, repeatStr, writeValue, writeObject, writeFields, orderedKeysForMap,
      keysOf, sortStrings, insertSorted, memKey, lookupKV, lookupD, childOrderOf,
      jsonQuote, escapeChar, writeScalar, str_data_append]

/-! ## OCI reference parsing (claims C5, C6) -/

/-- Model of `strings.TrimPrefix(ociRef, "oci://")`. -/
def stripScheme (s : String) : String :=
  if s.data.take 6 = ['o', 'c', 'i', ':', '/', '/'] then ⟨s.data.drop 6⟩ else s

/-- Split at the first occurrence of a character: `some (before, after)`
when present (model of `strings.SplitN(s, c, 2)` and `strings.Index`). -/
def splitFirst (ch : Char) : List Char → Option (List Char × List Char)
  | [] => none
  | c :: rest =>
    if c = ch then some ([], rest)
    else
      match splitFirst ch rest with
      | some (a, b) => some (c :: a, b)
      | none => none

/-- Model of `ParseOciRef`: strip the optional scheme, split the tag at the
first colon (defaulting to `latest`), then split registry from repository at
the first slash; no slash at all is the only failure. Returns
`(registry, repository, tag)`. -/
def ParseOciRef (ociRef : String) : Option (String × String × String) :=
  let ref := stripScheme ociRef
  let parts := splitFirst ':' ref.data
  let fullPath : List Char :=
    match parts with
    | some (before, _) => before
    | none => ref.data
  let tag : String :=
    match parts with
    | some (_, after) => ⟨after⟩
    | none => "latest"
  match splitFirst '/' fullPath with
  | none => none
  | some (reg, repo) => some (⟨reg⟩, ⟨repo⟩, tag)

theorem splitFirst_length_lt (ch : Char) (l a b : List Char)
    (h : splitFirst ch l = some (a, b)) : b.length < l.length := by
  induction l generalizing a b with
  | nil => simp [splitFirst] at h
  | cons c rest ih =>
    rw [splitFirst] at h
    by_cases hc : c = ch
    · rw [if_pos hc] at h
      cases h
      simp
    · rw [if_neg hc] at h
      cases hsp : splitFirst ch rest with
      | none => rw [hsp] at h; cases h
      | some p =>
        obtain ⟨a2, b2⟩ := p
        rw [hsp] at h
        simp only [Option.some.injEq, Prod.mk.injEq] at h
        obtain ⟨h1, h2⟩ := h
        subst h2
        have hlt := ih a2 b2 hsp
        simp
        omega

/-- Split a character list on every occurrence of a character (used only to
state the spec's segment counting). -/
def splitOnChar (ch : Char) : List Char → List (List Char)
  | [] => [[]]
  | c :: rest =>
    if c = ch then [] :: splitOnChar ch rest
    else
      match splitOnChar ch rest with
      | [] => [[c]]
      | seg :: segs => (c :: seg) :: segs

/-- The spec's measure on a reference: the number of slash-separated path
segments beyond the registry host, in the remainder after stripping the
scheme and the tag. -/
def refPathSegments (s : String) : Nat :=
  let ref := stripScheme s
  let fullPath : List Char :=
    match splitFirst ':' ref.data with
    | some (before, _) => before
    | none => ref.data
  (splitOnChar '/' fullPath).length - 1

theorem splitOnChar_ne_nil (ch : Char) (l : List Char) : splitOnChar ch l ≠ [] := by
  cases l with
  | nil => simp [splitOnChar]
  | cons c rest =>
    rw [splitOnChar]
    by_cases h : c = ch
    · simp [h]
    · rw [if_neg h]
      cases hsp : splitOnChar ch rest with
      | nil => simp
      | cons seg segs => simp

theorem splitOnChar_length_one (ch : Char) (l : List Char) :
    (splitOnChar ch l).length = 1 ↔ splitFirst ch l = none := by
  induction l with
  | nil => simp [splitOnChar, splitFirst]
  | cons c rest ih =>
    rw [splitOnChar, splitFirst]
    by_cases h : c = ch
    · rw [if_pos h, if_pos h]
      simp only [List.length_cons]
      constructor
      · intro hl
        exfalso
        have h0 : (splitOnChar ch rest).length = 0 := by omega
        exact splitOnChar_ne_nil ch rest (List.eq_nil_of_length_eq_zero h0)
      · intro hcon
        cases hcon
    · rw [if_neg h, if_neg h]
      cases hsp : splitOnChar ch rest with
      | nil => exact absurd hsp (splitOnChar_ne_nil ch rest)
      | cons seg segs =>
        simp only [List.length_cons]
        rw [hsp] at ih
        simp only [List.length_cons] at ih
        cases hq : splitFirst ch rest with
        | none =>
          rw [hq] at ih
          simp only [iff_true] at ih
          constructor
          · intro _
            rfl
          · intro _
            exact ih
        | some p =>
          obtain ⟨a, b⟩ := p
          rw [hq] at ih
          constructor
          · intro hlen
            cases ih.mp hlen
          · intro hcon
            cases hcon

/-- C5 (amended): parsing an OCI reference fails if and only if, after
stripping the scheme and the tag, the remainder has zero path segments
beyond the registry host, i.e. contains no slash at all (one path segment
beyond the host already suffices for the parse to succeed). The second
conjunct records the spec's own positive example. -/
theorem c5_parse_oci_ref :
    (∀ s, ParseOciRef s = none ↔ refPathSegments s = 0)
    ∧ ParseOciRef ("ghcr.io/devcontainers/templates/python:1")
        = some ("ghcr.io", "devcontainers/templates/python", "1") := by
  constructor
  · intro s
    unfold ParseOciRef refPathSegments
    cases hp : splitFirst ':' (stripScheme s).data with
    | none =>
      simp only [hp]
      cases hs : splitFirst '/' (stripScheme s).data with
      | none =>
        simp only [hs]
        have h1 := (splitOnChar_length_one '/' (stripScheme s).data).mpr hs
        constructor
        · intro _
          omega
        · intro _
          trivial
      | some p =>
        obtain ⟨a, b⟩ := p
        simp only [hs]
        constructor
        · intro hcon; cases hcon
        · intro hcon
          exfalso
          have h3 : (splitOnChar '/' (stripScheme s).data).length ≠ 0 := fun h0 =>
            splitOnChar_ne_nil '/' (stripScheme s).data (List.eq_nil_of_length_eq_zero h0)
          have h2 : (splitOnChar '/' (stripScheme s).data).length = 1 := by omega
          have := (splitOnChar_length_one '/' (stripScheme s).data).mp h2
          rw [hs] at this
          cases this
    | some p =>
      obtain ⟨before, after⟩ := p
      simp only [hp]
      cases hs : splitFirst '/' before with
      | none =>
        simp only [hs]
        have h1 := (splitOnChar_length_one '/' before).mpr hs
        constructor
        · intro _
          omega
        · intro _
          trivial
      | some q =>
        obtain ⟨a, b⟩ := q
        simp only [hs]
        constructor
        · intro hcon; cases hcon
        · intro hcon
          exfalso
          have h3 : (splitOnChar '/' before).length ≠ 0 := fun h0 =>
            splitOnChar_ne_nil '/' before (List.eq_nil_of_length_eq_zero h0)
          have h2 : (splitOnChar '/' before).length = 1 := by omega
          have := (splitOnChar_length_one '/' before).mp h2
          rw [hs] at this
          cases this
  · rfl

/-- C5 counterexample: the claim as stated (parse fails iff fewer than two
path segments beyond the host) is false: `ghcr.io/python` has one segment
beyond the host, yet `ParseOciRef` accepts it. -/
theorem c5_counterexample :
    ¬ ((ParseOciRef ("ghcr.io/python") = none) ↔ refPathSegments ("ghcr.io/python") < 2) := by
  intro h
  have h1 : refPathSegments ("ghcr.io/python") < 2 := by decide
  have h2 := h.mpr h1
  have h3 : ParseOciRef ("ghcr.io/python") = some ("ghcr.io", "python", "latest") := by decide
  rw [h3] at h2
  cases h2

/-- The `if idx := strings.LastIndex(ref, c); idx != -1 { ref = ref[:idx] }`
step: keep the prefix before the last occurrence of a character, or the
whole list when the character does not occur. -/
def beforeLastChar (ch : Char) (l : List Char) : List Char :=
  match l.reverse.dropWhile (fun c => !(c == ch)) with
  | [] => l
  | _ :: rest => rest.reverse

/-- Model of `extractCollectionBase`: strip the optional scheme, drop from
the last colon onward (the tag), then drop the last slash-delimited path
segment. -/
def extractCollectionBase (s : String) : String :=
  let ref := stripScheme s
  let ref2 := beforeLastChar ':' ref.data
  let ref3 := beforeLastChar '/' ref2
  ⟨ref3⟩

theorem dropWhile_append_of_all {p : Char → Bool} (xs ys : List Char)
    (h : ∀ c ∈ xs, p c = true) : (xs ++ ys).dropWhile p = ys.dropWhile p := by
  induction xs with
  | nil => rfl
  | cons x rest ih =>
    rw [List.cons_append, List.dropWhile_cons, if_pos (h x (by simp))]
    exact ih (fun c hc => h c (List.mem_cons_of_mem x hc))

theorem beforeLastChar_append (ch : Char) (a b : List Char) (h : ch ∉ b) :
    beforeLastChar ch (a ++ ch :: b) = a := by
  unfold beforeLastChar
  have hrev : (a ++ ch :: b).reverse = b.reverse ++ ch :: a.reverse := by
    simp
  rw [hrev]
  rw [dropWhile_append_of_all b.reverse (ch :: a.reverse) (by
    intro c hc
    rw [List.mem_reverse] at hc
    have : c ≠ ch := fun hcc => h (hcc ▸ hc)
    simp [this])]
  rw [List.dropWhile_cons]
  simp

theorem beforeLastChar_not_mem (ch : Char) (l : List Char) (h : ch ∉ l) :
    beforeLastChar ch l = l := by
  unfold beforeLastChar
  have hall : l.reverse.dropWhile (fun c => !(c == ch)) = [] := by
    rw [List.dropWhile_eq_nil_iff]
    intro c hc
    rw [List.mem_reverse] at hc
    have : c ≠ ch := fun hcc => h (hcc ▸ hc)
    simp [this]
  rw [hall]

/-- C6: `extractCollectionBase` strips the optional scheme, removes the text
from the last colon onward, then removes the last slash-delimited path
segment. The first two conjuncts characterise the removal steps (dropping
exactly the suffix that starts at the last occurrence, and leaving the list
untouched when the character is absent); the last conjunct is the spec's
worked example. -/
theorem c6_extract_collection_base :
    (∀ ch : Char, ∀ a b : List Char, ch ∉ b → beforeLastChar ch (a ++ ch :: b) = a)
    ∧ (∀ ch : Char, ∀ l : List Char, ch ∉ l → beforeLastChar ch l = l)
    ∧ (∀ s : String, extractCollectionBase s =
        ⟨beforeLastChar '/' (beforeLastChar ':' (stripScheme s).data)⟩)
    ∧ extractCollectionBase ("ghcr.io/devcontainers/templates/python:1")
        = "ghcr.io/devcontainers/templates" := by
  refine ⟨beforeLastChar_append, beforeLastChar_not_mem, fun s => rfl, ?_⟩
  decide

theorem c6_extract_collection_base_witness :
    (':' ∉ ("1").data ∧ beforeLastChar ':' (("ghcr.io/devcontainers/templates/python").data
        ++ ':' :: ("1").data) = ("ghcr.io/devcontainers/templates/python").data)
    ∧ ('/' ∉ ("ghcr.io").data ∧ beforeLastChar '/' (("ghcr.io").data) = ("ghcr.io").data) := by
  constructor
  · exact ⟨by decide, c6_extract_collection_base.1 ':' _ _ (by decide)⟩
  · exact ⟨by decide, c6_extract_collection_base.2.1 '/' _ (by decide)⟩

/-! ## Archive metadata extraction (claims C7, C8) -/

/-- One tar archive entry: header name and body bytes. -/
structure TarEntry where
  name : String
  body : String

/-- Model of `strings.TrimPrefix(header.Name, "./")`. -/
def trimDotSlash (n : String) : String :=
  if n.data.take 2 = ['.', '/'] then ⟨n.data.drop 2⟩ else n

/-- Result of one extraction attempt: success, a decode (`json.Unmarshal`)
failure on the matched entry, or no entry matched (`NotFoundError`). -/
inductive ExtractResult (T : Type) where
  | ok (value : T)
  | parseError
  | notFound

/-- The entry-walking loop of `extractJSONFromTgz`: entries in archive
order, each name stripped of a leading `./` before the comparison; the
first exact match is decoded and returned; exhaustion yields `notFound`. -/
def extractFromEntries {T : Type} (decode : String → Option T) (filename : String) :
    List TarEntry → ExtractResult T
  | [] => .notFound
  | e :: rest =>
    if trimDotSlash e.name = filename then
      match decode e.body with
      | some t => .ok t
      | none => .parseError
    else extractFromEntries decode filename rest

/-- Model of a blob as the extractor sees it: the outcome of attempting
gzip decompression (`some` = the gzip stream decodes, yielding these tar
entries) together with the tar entries of the raw bytes (used when gzip
fails; tar reading itself is modelled on well-formed archives). The JSON
decoding of an entry body for the requested schema is the abstract
parameter `decode`. -/
structure BlobModel where
  gzipEntries : Option (List TarEntry)
  rawEntries : List TarEntry

/-- Model of `extractJSONFromTgz`: try gzip first, fall back to the raw
bytes as a plain tar, then walk the entries. -/
def extractJSONFromTgz {T : Type} (decode : String → Option T) (blob : BlobModel)
    (filename : String) : ExtractResult T :=
  let entries :=
    match blob.gzipEntries with
    | some gz => gz
    | none => blob.rawEntries
  extractFromEntries decode filename entries

/-- C7: extraction attempts gzip first and on gzip failure treats the bytes
as an uncompressed tar (same walk, no error from the absence of
compression); the walk returns the decoded body of the first entry whose
`./`-stripped name equals the target, and exhausting all entries yields
`NotFoundError`. -/
theorem c7_extract_from_archive :
    (∀ (T : Type) (decode : String → Option T) (raw : List TarEntry) (fn : String),
        extractJSONFromTgz decode ⟨none, raw⟩ fn = extractFromEntries decode fn raw)
    ∧ (∀ (T : Type) (decode : String → Option T) (gz raw : List TarEntry) (fn : String),
        extractJSONFromTgz decode ⟨some gz, raw⟩ fn = extractFromEntries decode fn gz)
    ∧ (∀ (T : Type) (decode : String → Option T) (fn : String) (entries : List TarEntry),
        extractFromEntries decode fn entries =
          match entries.find? (fun e => trimDotSlash e.name == fn) with
          | some e =>
            (match decode e.body with
             | some t => ExtractResult.ok t
             | none => ExtractResult.parseError)
          | none => ExtractResult.notFound)
    ∧ (∀ (T : Type) (decode : String → Option T) (fn : String) (entries : List TarEntry),
        (∀ e ∈ entries, trimDotSlash e.name ≠ fn) →
          extractFromEntries decode fn entries = ExtractResult.notFound) := by
  refine ⟨fun T decode raw fn => rfl, fun T decode gz raw fn => rfl, ?_, ?_⟩
  · intro T decode fn entries
    induction entries with
    | nil => rfl
    | cons e rest ih =>
      rw [extractFromEntries, List.find?]
      by_cases h : trimDotSlash e.name = fn
      · rw [if_pos h]
        have hb : (trimDotSlash e.name == fn) = true := by
          rw [beq_iff_eq]
          exact h
        rw [hb]
      · rw [if_neg h]
        have hb : (trimDotSlash e.name == fn) = false := by
          rw [beq_eq_false_iff_ne]
          exact h
        rw [hb]
        exact ih
  · intro T decode fn entries h
    induction entries with
    | nil => rfl
    | cons e rest ih =>
      rw [extractFromEntries, if_neg (h e (by simp))]
      exact ih (fun e2 he2 => h e2 (List.mem_cons_of_mem e he2))

theorem c7_extract_from_archive_witness :
    (∀ e ∈ [TarEntry.mk "other.json" "x"], trimDotSlash e.name ≠ "devcontainer-collection.json")
    ∧ extractFromEntries (fun _ => some 0) "devcontainer-collection.json"
        [TarEntry.mk "other.json" "x"] = ExtractResult.notFound := by
  constructor
  · intro e he
    simp only [List.mem_singleton] at he
    subst he
    decide
  · exact c7_extract_from_archive.2.2.2 Nat (fun _ => some 0) "devcontainer-collection.json"
      [TarEntry.mk "other.json" "x"] (by
        intro e he
        simp only [List.mem_singleton] at he
        subst he
        decide)

/-- Model of `extractItemJSON`: try the template file first, then the
feature file; the result triple is `(template, feature, errored)`. -/
def extractItemJSON {T F : Type} (decT : String → Option T) (decF : String → Option F)
    (blob : BlobModel) : Option T × Option F × Bool :=
  match extractJSONFromTgz decT blob "devcontainer-template.json" with
  | .ok t => (some t, none, false)
  | _ =>
    match extractJSONFromTgz decF blob "devcontainer-feature.json" with
    | .ok f => (none, some f, false)
    | _ => (none, none, true)

/-- C8: item extraction tries `devcontainer-template.json` before
`devcontainer-feature.json` and surfaces only the first that parses: when
the template extraction succeeds the feature result is never surfaced, and
the returned pair never carries both a template and a feature. -/
theorem c8_extract_item :
    (∀ (T F : Type) (decT : String → Option T) (decF : String → Option F) (blob : BlobModel),
        ¬ (((extractItemJSON decT decF blob).1.isSome = true)
            ∧ ((extractItemJSON decT decF blob).2.1.isSome = true)))
    ∧ (∀ (T F : Type) (decT : String → Option T) (decF : String → Option F) (blob : BlobModel)
        (t : T), extractJSONFromTgz decT blob "devcontainer-template.json" = .ok t →
          extractItemJSON decT decF blob = (some t, none, false)) := by
  constructor
  · intro T F decT decF blob hcon
    obtain ⟨h1, h2⟩ := hcon
    unfold extractItemJSON at h1 h2
    cases hT : extractJSONFromTgz decT blob "devcontainer-template.json" with
    | ok t => rw [hT] at h2; simp at h2
    | parseError =>
      rw [hT] at h1
      cases hF : extractJSONFromTgz decF blob "devcontainer-feature.json" with
      | ok f => rw [hF] at h1; simp at h1
      | parseError => rw [hF] at h1; simp at h1
      | notFound => rw [hF] at h1; simp at h1
    | notFound =>
      rw [hT] at h1
      cases hF : extractJSONFromTgz decF blob "devcontainer-feature.json" with
      | ok f => rw [hF] at h1; simp at h1
      | parseError => rw [hF] at h1; simp at h1
      | notFound => rw [hF] at h1; simp at h1
  · intro T F decT decF blob t h
    unfold extractItemJSON
    rw [h]

theorem c8_extract_item_witness :
    extractJSONFromTgz (fun _ => some 7) (BlobModel.mk
        (some [TarEntry.mk "./devcontainer-template.json" "b1",
               TarEntry.mk "devcontainer-feature.json" "b2"]) [])
        "devcontainer-template.json" = ExtractResult.ok 7
    ∧ extractItemJSON (fun _ => some 7) (fun _ => some "f") (BlobModel.mk
        (some [TarEntry.mk "./devcontainer-template.json" "b1",
               TarEntry.mk "devcontainer-feature.json" "b2"]) [])
        = (some 7, none, false) := by
  constructor
  · rfl
  · exact c8_extract_item.2 Nat String (fun _ => some 7) (fun _ => some "f") _ 7 rfl

/-! ## The `encoding/json` token stream (for `extractKeyOrder`)

The Go code drives a `json.Decoder` via `Token()`/`More()`. We model the
decoder as the list of tokens of the longest valid prefix of the input: a
`Token()` call pops the next token and fails exactly when no further valid
token exists (a syntax error is sticky in the decoder, so after the first
failure every call keeps failing, which the exhausted list models), and
`More()` reports whether a next token exists that is not a closing
delimiter. The lexer below produces that token list by scanning one JSON
value with the grammar `encoding/json` enforces, stopping (with `none` as
the remaining input) at the first syntax error. It is fueled for
termination; every caller passes fuel exceeding any possible consumption
(two units per input character suffice). -/

/-- Token kinds as observed by the decode functions: the four delimiters,
strings, and anything else (numbers, booleans, null), which the decode
functions never inspect further. -/
inductive JToken where
  | lbrace
  | rbrace
  | lbrack
  | rbrack
  | tstr (s : String)
  | tother
deriving DecidableEq

/-- JSON whitespace accepted between tokens. -/
def isWsChar (c : Char) : Bool := c == ' ' || c == '\t' || c == '\n' || c == '\r'

/-- Skip leading whitespace. -/
def skipWs : List Char → List Char
  | [] => []
  | c :: rest => if isWsChar c then skipWs rest else c :: rest

/-- Value of a hexadecimal digit. -/
def hexVal (c : Char) : Option Nat :=
  if 48 ≤ c.toNat ∧ c.toNat ≤ 57 then some (c.toNat - 48)
  else if 97 ≤ c.toNat ∧ c.toNat ≤ 102 then some (c.toNat - 87)
  else if 65 ≤ c.toNat ∧ c.toNat ≤ 70 then some (c.toNat - 55)
  else none

/-- After a high surrogate `\uXXXX`, `encoding/json` looks for a low
surrogate escape: a valid pair decodes to one code point, anything else
yields the replacement character with no extra input consumed. -/
def lexLowSurrogate (n : Nat) (cs : List Char) : Char × List Char :=
  match cs with
  | '\\' :: 'u' :: g1 :: g2 :: g3 :: g4 :: rest4 =>
    match hexVal g1, hexVal g2, hexVal g3, hexVal g4 with
    | some y1, some y2, some y3, some y4 =>
      let m := ((y1 * 16 + y2) * 16 + y3) * 16 + y4
      if 56320 ≤ m ∧ m < 57344 then
        (Char.ofNat (65536 + (n - 55296) * 1024 + (m - 56320)), rest4)
      else (Char.ofNat 65533, cs)
    | _, _, _, _ => (Char.ofNat 65533, cs)
  | _ => (Char.ofNat 65533, cs)

theorem lexLowSurrogate_length (n : Nat) (cs : List Char) :
    (lexLowSurrogate n cs).2.length ≤ cs.length := by
  unfold lexLowSurrogate
  split
  · rename_i g1 g2 g3 g4 rest4
    cases hexVal g1 <;> cases hexVal g2 <;> cases hexVal g3 <;> cases hexVal g4 <;>
      simp only []
    all_goals try simp
    split
    · simp
      omega
    · simp
  · simp

/-- Lex the remainder of a JSON string literal (the opening quote already
consumed), decoding escapes the way `encoding/json` does, surrogate pairs
and replacement characters included; raw control characters are an error.
Returns the decoded string and the input after the closing quote. Fueled
for structural recursion; each step consumes at least one character, so any
fuel exceeding the input length is enough. -/
def lexStringF : Nat → List Char → List Char → Option (String × List Char)
  | 0, _, _ => none
  | _ + 1, [], _ => none
  | fuel + 1, c :: rest, acc =>
    if c = '"' then some (⟨acc.reverse⟩, rest)
    else if c = '\\' then
      match rest with
      | [] => none
      | e :: rest2 =>
        if e = '"' then lexStringF fuel rest2 ('"' :: acc)
        else if e = '\\' then lexStringF fuel rest2 ('\\' :: acc)
        else if e = '/' then lexStringF fuel rest2 ('/' :: acc)
        else if e = 'b' then lexStringF fuel rest2 ('\x08' :: acc)
        else if e = 'f' then lexStringF fuel rest2 ('\x0c' :: acc)
        else if e = 'n' then lexStringF fuel rest2 ('\n' :: acc)
        else if e = 'r' then lexStringF fuel rest2 ('\r' :: acc)
        else if e = 't' then lexStringF fuel rest2 ('\t' :: acc)
        else if e = 'u' then
          match rest2 with
          | h1 :: h2 :: h3 :: h4 :: rest3 =>
            match hexVal h1, hexVal h2, hexVal h3, hexVal h4 with
            | some x1, some x2, some x3, some x4 =>
              let n := ((x1 * 16 + x2) * 16 + x3) * 16 + x4
              if 55296 ≤ n ∧ n < 56320 then
                let p := lexLowSurrogate n rest3
                lexStringF fuel p.2 (p.1 :: acc)
              else if 56320 ≤ n ∧ n < 57344 then
                lexStringF fuel rest3 (Char.ofNat 65533 :: acc)
              else lexStringF fuel rest3 (Char.ofNat n :: acc)
            | _, _, _, _ => none
          | _ => none
        else none
    else if c.toNat < 32 then none
    else lexStringF fuel rest (c :: acc)

/-- String-literal lexer with always-sufficient fuel. -/
def lexString (cs : List Char) (acc : List Char) : Option (String × List Char) :=
  lexStringF (cs.length + 1) cs acc

/-- Decimal digit test. -/
def isDigitCh (c : Char) : Bool := decide (48 ≤ c.toNat ∧ c.toNat ≤ 57)

/-- Drop leading decimal digits. -/
def dropDigits : List Char → List Char
  | [] => []
  | c :: rest => if isDigitCh c then dropDigits rest else c :: rest

/-- Lex an optional fraction part. -/
def lexFracPart : List Char → Option (List Char)
  | [] => some []
  | c :: rest =>
    if c = '.' then
      match rest with
      | d :: r2 => if isDigitCh d then some (dropDigits r2) else none
      | [] => none
    else some (c :: rest)

/-- Lex an optional exponent part. -/
def lexExpPart : List Char → Option (List Char)
  | [] => some []
  | c :: rest =>
    if c = 'e' ∨ c = 'E' then
      let r2 := match rest with
        | s :: r3 => if s = '+' ∨ s = '-' then r3 else rest
        | [] => rest
      match r2 with
      | d :: r4 => if isDigitCh d then some (dropDigits r4) else none
      | [] => none
    else some (c :: rest)

/-- Lex a JSON number (`-?(0|[1-9][0-9]*)(\.[0-9]+)?([eE][+-]?[0-9]+)?`),
starting at the sign or first digit; returns the rest on success. -/
def lexNumber (cs : List Char) : Option (List Char) :=
  let cs1 := match cs with
    | '-' :: r => r
    | _ => cs
  match cs1 with
  | [] => none
  | c :: r =>
    if c = '0' then
      match lexFracPart r with
      | some r2 => lexExpPart r2
      | none => none
    else if isDigitCh c then
      match lexFracPart (dropDigits r) with
      | some r2 => lexExpPart r2
      | none => none
    else none

/-- Lex one of the literals `true`, `false`, `null`. -/
def lexLiteral : List Char → Option (List Char)
  | 't' :: 'r' :: 'u' :: 'e' :: rest => some rest
  | 'f' :: 'a' :: 'l' :: 's' :: 'e' :: rest => some rest
  | 'n' :: 'u' :: 'l' :: 'l' :: rest => some rest
  | _ => none

/-- After a number or literal the scanner requires whitespace, a comma, a
closing delimiter, or the end of input; anything else is a syntax error
raised before the token is surfaced. -/
def postValueOk : List Char → Bool
  | [] => true
  | c :: _ => isWsChar c || c == ',' || c == ']' || c == '\x7d'

mutual

/-- Lex one JSON value, returning its tokens and the remaining input
(`none` when a syntax error cuts the token stream short). -/
def lexValueF : Nat → List Char → List JToken × Option (List Char)
  | 0, _ => ([], none)
  | fuel + 1, cs =>
    match skipWs cs with
    | [] => ([], none)
    | c :: rest =>
      if c = '\x7b' then
        let r := lexObjStartF fuel rest
        (JToken.lbrace :: r.1, r.2)
      else if c = '[' then
        let r := lexArrStartF fuel rest
        (JToken.lbrack :: r.1, r.2)
      else if c = '"' then
        match lexString rest [] with
        | some (s, r2) => ([JToken.tstr s], some r2)
        | none => ([], none)
      else if c = '-' ∨ isDigitCh c then
        match lexNumber (c :: rest) with
        | some r2 => if postValueOk r2 then ([JToken.tother], some r2) else ([], none)
        | none => ([], none)
      else
        match lexLiteral (c :: rest) with
        | some r2 => if postValueOk r2 then ([JToken.tother], some r2) else ([], none)
        | none => ([], none)

/-- Lex an object body right after the opening brace: either the closing
brace, or a first member followed by the member tail. -/
def lexObjStartF : Nat → List Char → List JToken × Option (List Char)
  | 0, _ => ([], none)
  | fuel + 1, cs =>
    match skipWs cs with
    | [] => ([], none)
    | c :: rest =>
      if c = '\x7d' then ([JToken.rbrace], some rest)
      else if c = '"' then
        match lexString rest [] with
        | none => ([], none)
        | some (k, r2) =>
          match skipWs r2 with
          | ':' :: r3 =>
            let v := lexValueF fuel r3
            match v.2 with
            | none => (JToken.tstr k :: v.1, none)
            | some r4 =>
              let t := lexObjTailF fuel r4
              (JToken.tstr k :: v.1 ++ t.1, t.2)
          | _ => ([JToken.tstr k], none)
      else ([], none)

/-- Lex the continuation of an object body after a member: the closing
brace, or a comma and another member. -/
def lexObjTailF : Nat → List Char → List JToken × Option (List Char)
  | 0, _ => ([], none)
  | fuel + 1, cs =>
    match skipWs cs with
    | [] => ([], none)
    | c :: rest =>
      if c = '\x7d' then ([JToken.rbrace], some rest)
      else if c = ',' then
        match skipWs rest with
        | '"' :: r1 =>
          match lexString r1 [] with
          | none => ([], none)
          | some (k, r2) =>
            match skipWs r2 with
            | ':' :: r3 =>
              let v := lexValueF fuel r3
              match v.2 with
              | none => (JToken.tstr k :: v.1, none)
              | some r4 =>
                let t := lexObjTailF fuel r4
                (JToken.tstr k :: v.1 ++ t.1, t.2)
            | _ => ([JToken.tstr k], none)
        | _ => ([], none)
      else ([], none)

/-- Lex an array body right after the opening bracket. -/
def lexArrStartF : Nat → List Char → List JToken × Option (List Char)
  | 0, _ => ([], none)
  | fuel + 1, cs =>
    match skipWs cs with
    | [] => ([], none)
    | c :: rest =>
      if c = ']' then ([JToken.rbrack], some rest)
      else
        let v := lexValueF fuel (c :: rest)
        match v.2 with
        | none => (v.1, none)
        | some r2 =>
          let t := lexArrTailF fuel r2
          (v.1 ++ t.1, t.2)

/-- Lex the continuation of an array body after an element. -/
def lexArrTailF : Nat → List Char → List JToken × Option (List Char)
  | 0, _ => ([], none)
  | fuel + 1, cs =>
    match skipWs cs with
    | [] => ([], none)
    | c :: rest =>
      if c = ']' then ([JToken.rbrack], some rest)
      else if c = ',' then
        let v := lexValueF fuel rest
        match v.2 with
        | none => (v.1, none)
        | some r2 =>
          let t := lexArrTailF fuel r2
          (v.1 ++ t.1, t.2)
      else ([], none)

end

/-- The token stream the `json.Decoder` yields for the input (the decode
functions below never read past the one top-level value). -/
def jsonTokens (data : String) : List JToken :=
  (lexValueF (2 * data.data.length + 2) data.data).1

/-- Model of `dec.More()`: a next token exists and is not a closing
delimiter. -/
def MoreTok : List JToken → Bool
  | [] => false
  | t :: _ => !(t == JToken.rbrace || t == JToken.rbrack)

mutual

/-- Model of `decodeValueOrder`: a failing `Token()` call is an error; an
object start decodes the object's order; an array start only skips the
array (recording nothing, and — like the Go function — reporting no
error); every other token yields no order. The `Bool` is `err != nil`. -/
def decodeValueOrderF : Nat → List JToken → Option KeyOrder × List JToken × Bool
  | 0, toks => (none, toks, true)
  | _ + 1, [] => (none, [], true)
  | fuel + 1, t :: rest =>
    match t with
    | JToken.lbrace =>
      let r := decodeObjectLoopF fuel [] [] rest
      (some r.1, r.2)
    | JToken.lbrack =>
      let r := decodeArrayLoopF fuel rest
      (none, r.1, r.2)
    | _ => (none, rest, false)

/-- Model of `decodeObjectOrder`'s member loop with its accumulated keys
and children: while `More()`, read the key token and append it, decode the
member value's order; an error there aborts with the keys read so far (the
child is discarded, as in the Go `return order, err` before the map
insert); otherwise record a non-nil child and continue. When `More()` is
false the closing brace is consumed if present (its `Token()` error, e.g.
at end of input, is discarded by the Go code). A non-string key token is
skipped (`continue`), mirroring the dead branch in the source. -/
def decodeObjectLoopF : Nat → List String → List (String × KeyOrder) → List JToken →
    KeyOrder × List JToken × Bool
  | 0, ks, ch, toks => (KeyOrder.mk ks ch, toks, true)
  | fuel + 1, ks, ch, toks =>
    if MoreTok toks then
      match toks with
      | JToken.tstr key :: rest =>
        let v := decodeValueOrderF fuel rest
        if v.2.2 then (KeyOrder.mk (ks ++ [key]) ch, v.2.1, true)
        else
          let ch2 := match v.1 with
            | some c => mapSet ch key c
            | none => ch
          decodeObjectLoopF fuel (ks ++ [key]) ch2 v.2.1
      | _ :: rest => decodeObjectLoopF fuel ks ch rest
      | [] => (KeyOrder.mk ks ch, [], true)
    else
      match toks with
      | JToken.rbrace :: rest => (KeyOrder.mk ks ch, rest, false)
      | _ => (KeyOrder.mk ks ch, toks, false)

/-- Model of `decodeArrayOrder`'s loop: while `More()`, skip one value
(result and error ignored); then consume the closing bracket if present.
The Go function always returns a nil order and nil error; the `Bool` here
can only be set by fuel exhaustion, which no caller reaches. -/
def decodeArrayLoopF : Nat → List JToken → List JToken × Bool
  | 0, toks => (toks, true)
  | fuel + 1, toks =>
    if MoreTok toks then
      let v := decodeValueOrderF fuel toks
      decodeArrayLoopF fuel v.2.1
    else
      match toks with
      | JToken.rbrack :: rest => (rest, false)
      | _ => (toks, false)

end

/-- Model of `extractKeyOrder`: tokenize, decode one value's order, and
discard the error (`order, _ := decodeValueOrder(dec); return order`). -/
def extractKeyOrder (data : String) : Option KeyOrder :=
  let toks := jsonTokens data
  (decodeValueOrderF (2 * toks.length + 2) toks).1

theorem decodeValueOrderF_isSome (fuel : Nat) (toks : List JToken) :
    (decodeValueOrderF (fuel + 1) toks).1.isSome = true
      ↔ toks.head? = some JToken.lbrace := by
  cases toks with
  | nil => simp [decodeValueOrderF]
  | cons t rest =>
    cases t with
    | lbrace => simp [decodeValueOrderF]
    | rbrace => simp [decodeValueOrderF]
    | lbrack => simp [decodeValueOrderF]
    | rbrack => simp [decodeValueOrderF]
    | tstr s => simp [decodeValueOrderF]
    | tother => simp [decodeValueOrderF]

theorem lexValueF_head_lbrace (fuel : Nat) (cs : List Char) :
    (lexValueF (fuel + 1) cs).1.head? = some JToken.lbrace
      ↔ (skipWs cs).head? = some '\x7b' := by
  rw [lexValueF]
  cases hsw : skipWs cs with
  | nil => simp
  | cons c rest =>
    simp only [Option.some.injEq]
    by_cases hc : c = '\x7b'
    · rw [if_pos hc]
      simp [hc]
    · rw [if_neg hc]
      by_cases hb : c = '['
      · rw [if_pos hb]
        simp only [List.head?_cons, Option.some.injEq]
        constructor
        · intro hcon; cases hcon
        · intro hcon; exact absurd hcon hc
      · rw [if_neg hb]
        by_cases hq : c = '"'
        · rw [if_pos hq]
          cases hls : lexString rest [] with
          | none =>
            simp only [hls]
            constructor
            · intro hcon; cases hcon
            · intro hcon; exact absurd (Option.some.inj hcon) hc
          | some p =>
            obtain ⟨s2, r2⟩ := p
            simp only [hls]
            constructor
            · intro hcon; cases hcon
            · intro hcon; exact absurd (Option.some.inj hcon) hc
        · rw [if_neg hq]
          by_cases hn : c = '-' ∨ isDigitCh c = true
          · rw [if_pos hn]
            cases hln : lexNumber (c :: rest) with
            | none =>
              simp only [hln]
              constructor
              · intro hcon; cases hcon
              · intro hcon; exact absurd (Option.some.inj hcon) hc
            | some r2 =>
              simp only [hln]
              by_cases hp : postValueOk r2 = true
              · rw [if_pos hp]
                constructor
                · intro hcon; cases hcon
                · intro hcon; exact absurd (Option.some.inj hcon) hc
              · rw [if_neg hp]
                constructor
                · intro hcon; cases hcon
                · intro hcon; exact absurd (Option.some.inj hcon) hc
          · rw [if_neg hn]
            cases hll : lexLiteral (c :: rest) with
            | none =>
              simp only [hll]
              constructor
              · intro hcon; cases hcon
              · intro hcon; exact absurd (Option.some.inj hcon) hc
            | some r2 =>
              simp only [hll]
              by_cases hp : postValueOk r2 = true
              · rw [if_pos hp]
                constructor
                · intro hcon; cases hcon
                · intro hcon; exact absurd (Option.some.inj hcon) hc
              · rw [if_neg hp]
                constructor
                · intro hcon; cases hcon
                · intro hcon; exact absurd (Option.some.inj hcon) hc

/-- C4 (amended): `extractKeyOrder` never propagates an error to its
caller (the embedding returns a plain `Option KeyOrder`, the decode error
being discarded); on any input it yields an order exactly when the
document's first token is an object opener, and on malformed documents
that order can be a partial one, not the absent order claimed. -/
theorem c4_extract_key_order (s : String) :
    (extractKeyOrder s).isSome = true ↔ (skipWs s.data).head? = some '\x7b' := by
  unfold extractKeyOrder jsonTokens
  exact (decodeValueOrderF_isSome
      (2 * (lexValueF (2 * s.data.length + 2) s.data).1.length + 1)
      (lexValueF (2 * s.data.length + 2) s.data).1).trans
    (lexValueF_head_lbrace (2 * s.data.length + 1) s.data)

/-- C4 counterexample: on the malformed document `{"a":` the key-order
extraction returns a partial order carrying the key `a` (and no error),
not the absent order: the claim that a decode failure always yields the
absent order is false. -/
theorem c4_counterexample :
    (extractKeyOrder ("\x7b\"a\":")).map KeyOrder.keys = some ["a"]
    ∧ (extractKeyOrder ("\x7b\"a\":")).isSome = true
    ∧ (lexValueF (2 * ("\x7b\"a\":").data.length + 2) ("\x7b\"a\":").data).2 = none := by
  refine ⟨?_, ?_, ?_⟩
  · decide
  · decide
  · decide

/-! ## Configuration facade (claim C9) -/

/-- Outcome of a `WriteConfig` call: the returned error (if any) and the
file contents after the call. -/
structure WriteOutcome where
  result : Except String Unit
  fileAfter : Option String

/-- Model of `WriteConfig` over an explicit file-system outcome. Parameters:
`toJSON` models `jsonc.ToJSON` (the comment stripper, an external library
kept abstract); `priorFile` is the contents of the path when
`os.ReadFile` succeeds (`none` = missing or unreadable); `mkdirOk` and
`writeOk` say whether `os.MkdirAll` and `os.WriteFile` succeed; a failed
write leaves behind `writeFailContent` (writes are not transactional, so
the post-failure contents are a parameter, not specified). The document is
fully rendered before any directory or file operation runs. -/
def WriteConfig (toJSON : String → String) (priorFile : Option String)
    (mkdirOk writeOk : Bool) (writeFailContent : Option String)
    (config : List (String × JValue)) : WriteOutcome :=
  let order : Option KeyOrder :=
    match priorFile with
    | some existing => extractKeyOrder (toJSON existing)
    | none => none
  let data := marshalOrdered (JValue.jobj config) order
  if mkdirOk = false then ⟨.error "creating directory", priorFile⟩
  else if writeOk = false then ⟨.error "writing devcontainer.json", writeFailContent⟩
  else ⟨.ok (), some data⟩

/-- C9: `WriteConfig` treats a missing or unreadable prior file as a soft
condition (an absent key order, never an error), fails only when directory
creation or the file write fails (rendering and key-order extraction never
produce an error), and a failure before the write leaves the prior file
contents untouched. -/
theorem c9_write_config :
    (∀ toJSON priorFile mkdirOk writeOk wfc config,
        (WriteConfig toJSON priorFile mkdirOk writeOk wfc config).result = .ok ()
          ↔ (mkdirOk = true ∧ writeOk = true))
    ∧ (∀ toJSON wfc config,
        WriteConfig toJSON none true true wfc config
          = ⟨.ok (), some (marshalOrdered (JValue.jobj config) none)⟩)
    ∧ (∀ toJSON priorFile writeOk wfc config,
        WriteConfig toJSON priorFile false writeOk wfc config
          = ⟨.error "creating directory", priorFile⟩)
    ∧ (∀ toJSON priorFile existing wfc config, priorFile = some existing →
        WriteConfig toJSON priorFile true true wfc config
          = ⟨.ok (), some (marshalOrdered (JValue.jobj config)
              (extractKeyOrder (toJSON existing)))⟩) := by
  refine ⟨?_, ?_, ?_, ?_⟩
  · intro toJSON priorFile mkdirOk writeOk wfc config
    cases mkdirOk with
    | false =>
      simp [WriteConfig]
    | true =>
      cases writeOk with
      | false => simp [WriteConfig]
      | true => simp [WriteConfig]
  · intro toJSON wfc config
    rfl
  · intro toJSON priorFile writeOk wfc config
    rfl
  · intro toJSON priorFile existing wfc config h
    subst h
    rfl

theorem c9_write_config_witness :
    ((some "\x7b\x7d" : Option String) = some "\x7b\x7d")
    ∧ WriteConfig id (some "\x7b\x7d") true true none []
        = ⟨.ok (), some (marshalOrdered (JValue.jobj [])
            (extractKeyOrder (id "\x7b\x7d")))⟩ := by
  exact ⟨rfl, c9_write_config.2.2.2 id (some "\x7b\x7d") "\x7b\x7d" none [] rfl⟩

/-! ## Collection-cache concurrency (claim C10)

`FetchCollectionMetadata` takes `collectionCacheMu`, checks the cache,
releases the lock, and only then — on a miss — performs the network
resolution, re-taking the lock to insert the result. Two goroutines
resolving the same collection base are modelled as an interleaving system;
one step runs one atomic instruction of one goroutine. Program counters:
0 = `collectionCacheMu.Lock()` (line 61), 1 = cache lookup (line 62),
2 = `Unlock` and branch (hit returns the cached value, lines 63-66),
3 = the network resolution (manifest and blob fetches plus extraction,
lines 68-95, counted by `fetchCount`), 4 = `Lock` (line 97), 5 = cache
insert (line 98), 6 = `Unlock` (line 99), 7 = done. -/

/-- Shared state plus both goroutines' local state (`false` and `true`
name the two goroutines). -/
structure FetchState where
  lockHolder : Option Bool
  cachePresent : Bool
  fetchCount : Nat
  pcA : Nat
  pcB : Nat
  sawA : Bool
  sawB : Bool

/-- One atomic step of goroutine `g`; taking a held lock blocks (the state
is unchanged). -/
def stepFetch (s : FetchState) (g : Bool) : FetchState :=
  let pc := if g then s.pcB else s.pcA
  let saw := if g then s.sawB else s.sawA
  if pc = 0 then
    match s.lockHolder with
    | none =>
      if g then { s with lockHolder := some true, pcB := 1 }
      else { s with lockHolder := some false, pcA := 1 }
    | some _ => s
  else if pc = 1 then
    if g then { s with sawB := s.cachePresent, pcB := 2 }
    else { s with sawA := s.cachePresent, pcA := 2 }
  else if pc = 2 then
    if g then { s with lockHolder := none, pcB := if saw then 7 else 3 }
    else { s with lockHolder := none, pcA := if saw then 7 else 3 }
  else if pc = 3 then
    if g then { s with fetchCount := s.fetchCount + 1, pcB := 4 }
    else { s with fetchCount := s.fetchCount + 1, pcA := 4 }
  else if pc = 4 then
    match s.lockHolder with
    | none =>
      if g then { s with lockHolder := some true, pcB := 5 }
      else { s with lockHolder := some false, pcA := 5 }
    | some _ => s
  else if pc = 5 then
    if g then { s with cachePresent := true, pcB := 6 }
    else { s with cachePresent := true, pcA := 6 }
  else if pc = 6 then
    if g then { s with lockHolder := none, pcB := 7 }
    else { s with lockHolder := none, pcA := 7 }
  else s

/-- Initial state: cache empty, both goroutines about to lock. -/
def initFetch : FetchState :=
  { lockHolder := none, cachePresent := false, fetchCount := 0,
    pcA := 0, pcB := 0, sawA := false, sawB := false }

/-- Run a schedule (a list of goroutine choices). -/
def runSched : FetchState → List Bool → FetchState
  | s, [] => s
  | s, g :: rest => runSched (stepFetch s g) rest

/-- Program counters inside a critical section of `collectionCacheMu`. -/
def inCS (pc : Nat) : Bool := pc == 1 || pc == 2 || pc == 5 || pc == 6

/-- Network resolutions already performed by a goroutine at this program
counter (the fetch happens on the 3 → 4 transition; a goroutine that saw a
cache hit ends at 7 without fetching). -/
def fetchWeight (pc : Nat) (saw : Bool) : Nat :=
  if (4 ≤ pc ∧ pc ≤ 6) ∨ (pc = 7 ∧ saw = false) then 1 else 0

/-- Inductive invariant of the interleaving system. -/
def FetchInv (s : FetchState) : Prop :=
  s.pcA ≤ 7 ∧ s.pcB ≤ 7
    ∧ (inCS s.pcA = true ↔ s.lockHolder = some false)
    ∧ (inCS s.pcB = true ↔ s.lockHolder = some true)
    ∧ ((3 ≤ s.pcA ∧ s.pcA ≤ 6) → s.sawA = false)
    ∧ ((3 ≤ s.pcB ∧ s.pcB ≤ 6) → s.sawB = false)
    ∧ s.fetchCount = fetchWeight s.pcA s.sawA + fetchWeight s.pcB s.sawB

set_option maxHeartbeats 2000000 in
theorem stepFetch_inv (s : FetchState) (g : Bool) (h : FetchInv s) :
    FetchInv (stepFetch s g) := by
  obtain ⟨lh, cp, fc, pa, pb, sa, sb⟩ := s
  obtain ⟨hA, hB, hcsA, hcsB, hsA, hsB, hcount⟩ := h
  simp only [FetchInv, inCS, fetchWeight] at hcsA hcsB hsA hsB hcount ⊢
  cases g
  · interval_cases pa <;>
      simp only [stepFetch, if_true, if_false, Bool.false_eq_true, reduceIte] <;>
      cases lh <;> cases sa <;> cases sb <;> simp_all <;> omega
  · interval_cases pb <;>
      simp only [stepFetch, if_true, if_false, Bool.false_eq_true, reduceIte] <;>
      cases lh <;> cases sa <;> cases sb <;> simp_all <;> omega

theorem runSched_inv (sched : List Bool) (s : FetchState) (h : FetchInv s) :
    FetchInv (runSched s sched) := by
  induction sched generalizing s with
  | nil => exact h
  | cons g rest ih => exact ih (stepFetch s g) (stepFetch_inv s g h)

theorem initFetch_inv : FetchInv initFetch := by
  refine ⟨by simp [initFetch], by simp [initFetch], ?_, ?_, by simp [initFetch],
    by simp [initFetch], ?_⟩
  · simp [initFetch, inCS]
  · simp [initFetch, inCS]
  · simp [initFetch, fetchWeight]

/-- C10 (amended): the collection cache's mutual-exclusion lock does
protect the cache — in every reachable state at most one goroutine is
inside a critical section, so no duplicate-cache corruption occurs — but
the check and the insert are two separate critical sections with the
network resolution in between, so two concurrent fetches for the same base
may each perform a network resolution; across any schedule the number of
resolutions is at most two (one per goroutine), not at most one. -/
theorem c10_collection_cache (sched : List Bool) :
    ¬ (inCS (runSched initFetch sched).pcA = true
        ∧ inCS (runSched initFetch sched).pcB = true)
    ∧ (runSched initFetch sched).fetchCount ≤ 2 := by
  have hinv := runSched_inv sched initFetch initFetch_inv
  obtain ⟨hA, hB, hcsA, hcsB, hsA, hsB, hcount⟩ := hinv
  constructor
  · rintro ⟨h1, h2⟩
    rw [hcsA] at h1
    rw [hcsB] at h2
    rw [h1] at h2
    cases h2
  · have w1 : fetchWeight (runSched initFetch sched).pcA (runSched initFetch sched).sawA ≤ 1 := by
      unfold fetchWeight
      split <;> omega
    have w2 : fetchWeight (runSched initFetch sched).pcB (runSched initFetch sched).sawB ≤ 1 := by
      unfold fetchWeight
      split <;> omega
    omega

/-- C10 counterexample: the schedule in which both goroutines pass the
cache check before either fetches is reachable and performs two network
resolutions for the same collection base, refuting the claimed
at-most-one; both goroutines still run to completion and the cache ends
populated. -/
theorem c10_counterexample :
    (runSched initFetch [false, false, false, true, true, true,
        false, true, false, false, false, true, true, true]).fetchCount = 2
    ∧ (runSched initFetch [false, false, false, true, true, true,
        false, true, false, false, false, true, true, true]).pcA = 7
    ∧ (runSched initFetch [false, false, false, true, true, true,
        false, true, false, false, false, true, true, true]).pcB = 7
    ∧ (runSched initFetch [false, false, false, true, true, true,
        false, true, false, false, false, true, true, true]).cachePresent = true := by
  decide

/-! ## Round-trip infrastructure for claim C2

The serializer's output is re-lexed and re-decoded; the lemmas below show
that the token stream of `writeValue v o` is exactly `tokensOfValue v o`,
that decoding it recovers an order under which `v` re-serializes
identically, and hence that re-serializing under the extracted order is
byte-identical (claim C2). -/

theorem skipWs_cons_ws (c : Char) (l : List Char) (h : isWsChar c = true) :
    skipWs (c :: l) = skipWs l := by
  rw [skipWs, if_pos h]

theorem skipWs_cons_not_ws (c : Char) (l : List Char) (h : isWsChar c = false) :
    skipWs (c :: l) = c :: l := by
  rw [skipWs, if_neg (by rw [h]; exact Bool.false_ne_true)]

theorem skipWs_ws_append (l r : List Char) (h : ∀ c ∈ l, isWsChar c = true) :
    skipWs (l ++ r) = skipWs r := by
  induction l with
  | nil => rfl
  | cons c rest ih =>
    rw [List.cons_append, skipWs_cons_ws c _ (h c (by simp))]
    exact ih (fun c2 hc2 => h c2 (List.mem_cons_of_mem c hc2))

theorem repeatStr_indent_ws (n : Nat) : ∀ c ∈ (repeatStr "  " n).data, isWsChar c = true := by
  induction n with
  | zero => intro c hc; cases hc
  | succ k ih =>
    intro c hc
    have : c ∈ ("  ").data ++ (repeatStr "  " k).data := hc
    rcases List.mem_append.mp this with h2 | h2
    · rcases List.mem_cons.mp h2 with rfl | h3
      · rfl
      · rcases List.mem_singleton.mp h3 with rfl
        rfl
    · exact ih c h2

theorem hexVal_hexDigitChar (n : Nat) (h : n < 16) : hexVal (hexDigitChar n) = some n := by
  interval_cases n <;> decide

theorem lexStringF_u00 (a : Nat) (ha : a < 63) (rest acc : List Char) (fuel : Nat) :
    lexStringF (fuel + 1)
      ('\\' :: 'u' :: '0' :: '0' :: hexDigitChar (a / 16) :: hexDigitChar (a % 16) :: rest) acc
      = lexStringF fuel rest (Char.ofNat a :: acc) := by
  have e1 : hexVal '0' = some 0 := by decide
  have e2 : hexVal (hexDigitChar (a / 16)) = some (a / 16) :=
    hexVal_hexDigitChar _ (by omega)
  have e3 : hexVal (hexDigitChar (a % 16)) = some (a % 16) :=
    hexVal_hexDigitChar _ (by omega)
  rw [lexStringF]
  rw [if_neg (show ¬('\\' : Char) = '"' from by decide), if_pos rfl]
  rw [if_neg (show ¬('u' : Char) = '"' from by decide)]
  rw [if_neg (show ¬('u' : Char) = '\\' from by decide)]
  rw [if_neg (show ¬('u' : Char) = '/' from by decide)]
  rw [if_neg (show ¬('u' : Char) = 'b' from by decide)]
  rw [if_neg (show ¬('u' : Char) = 'f' from by decide)]
  rw [if_neg (show ¬('u' : Char) = 'n' from by decide)]
  rw [if_neg (show ¬('u' : Char) = 'r' from by decide)]
  rw [if_neg (show ¬('u' : Char) = 't' from by decide)]
  rw [if_pos rfl]
  simp only [e1, e2, e3]
  have hn : ((0 * 16 + 0) * 16 + a / 16) * 16 + a % 16 = a := by omega
  rw [hn]
  rw [if_neg (by omega), if_neg (by omega)]

theorem lexStringF_u2028 (rest acc : List Char) (fuel : Nat) :
    lexStringF (fuel + 1) ('\\' :: 'u' :: '2' :: '0' :: '2' :: '8' :: rest) acc
      = lexStringF fuel rest (Char.ofNat 8232 :: acc) := by
  have e1 : hexVal '2' = some 2 := by decide
  have e2 : hexVal '0' = some 0 := by decide
  have e3 : hexVal '8' = some 8 := by decide
  rw [lexStringF]
  rw [if_neg (show ¬('\\' : Char) = '"' from by decide), if_pos rfl]
  rw [if_neg (show ¬('u' : Char) = '"' from by decide)]
  rw [if_neg (show ¬('u' : Char) = '\\' from by decide)]
  rw [if_neg (show ¬('u' : Char) = '/' from by decide)]
  rw [if_neg (show ¬('u' : Char) = 'b' from by decide)]
  rw [if_neg (show ¬('u' : Char) = 'f' from by decide)]
  rw [if_neg (show ¬('u' : Char) = 'n' from by decide)]
  rw [if_neg (show ¬('u' : Char) = 'r' from by decide)]
  rw [if_neg (show ¬('u' : Char) = 't' from by decide)]
  rw [if_pos rfl]
  simp only [e1, e2, e3]
  norm_num

theorem lexStringF_u2029 (rest acc : List Char) (fuel : Nat) :
    lexStringF (fuel + 1) ('\\' :: 'u' :: '2' :: '0' :: '2' :: '9' :: rest) acc
      = lexStringF fuel rest (Char.ofNat 8233 :: acc) := by
  have e1 : hexVal '2' = some 2 := by decide
  have e2 : hexVal '0' = some 0 := by decide
  have e3 : hexVal '9' = some 9 := by decide
  rw [lexStringF]
  rw [if_neg (show ¬('\\' : Char) = '"' from by decide), if_pos rfl]
  rw [if_neg (show ¬('u' : Char) = '"' from by decide)]
  rw [if_neg (show ¬('u' : Char) = '\\' from by decide)]
  rw [if_neg (show ¬('u' : Char) = '/' from by decide)]
  rw [if_neg (show ¬('u' : Char) = 'b' from by decide)]
  rw [if_neg (show ¬('u' : Char) = 'f' from by decide)]
  rw [if_neg (show ¬('u' : Char) = 'n' from by decide)]
  rw [if_neg (show ¬('u' : Char) = 'r' from by decide)]
  rw [if_neg (show ¬('u' : Char) = 't' from by decide)]
  rw [if_pos rfl]
  simp only [e1, e2, e3]
  norm_num

/-- One lexer step consumes exactly one escaped character. -/
theorem lexStringF_escape_step (c : Char) (rest acc : List Char) (fuel : Nat) :
    lexStringF (fuel + 1) (escapeChar c ++ rest) acc = lexStringF fuel rest (c :: acc) := by
  unfold escapeChar
  split_ifs with h1 h2 h3 h4 h5 h6 h7 h8
  · subst h1; rfl
  · subst h2; rfl
  · subst h3; rfl
  · subst h4; rfl
  · subst h5; rfl
  · -- the \u00xx escape
    have hlt : c.toNat < 63 := by
      rcases Bool.or_eq_true _ _ |>.mp h6 with hx | hx
      · rcases Bool.or_eq_true _ _ |>.mp hx with hy | hy
        · rcases Bool.or_eq_true _ _ |>.mp hy with hz | hz
          · simp at hz; omega
          · simp at hz; subst hz; decide
        · simp at hy; subst hy; decide
      · simp at hx; subst hx; decide
    have := lexStringF_u00 c.toNat hlt rest acc fuel
    rw [Char.ofNat_toNat] at this
    exact this
  · have hc : c = Char.ofNat 8232 := by
      rw [← h7, Char.ofNat_toNat]
    subst hc
    exact lexStringF_u2028 rest acc fuel
  · have hc : c = Char.ofNat 8233 := by
      rw [← h8, Char.ofNat_toNat]
    subst hc
    exact lexStringF_u2029 rest acc fuel
  · -- raw character
    show lexStringF (fuel + 1) (c :: rest) acc = _
    simp only [lexStringF]
    rw [if_neg h1, if_neg h2, if_neg (fun hcon => h6 (by simp [hcon]))]

theorem escapeChar_length_pos (c : Char) : 1 ≤ (escapeChar c).length := by
  unfold escapeChar
  split_ifs <;> simp

theorem escList_length_ge (cs : List Char) :
    cs.length ≤ ((cs.map escapeChar).flatten).length := by
  induction cs with
  | nil => simp
  | cons c rest ih =>
    simp only [List.map_cons, List.flatten_cons, List.length_append, List.length_cons]
    have := escapeChar_length_pos c
    omega

theorem lexStringF_escList (cs : List Char) (rest acc : List Char) (fuel : Nat)
    (hfuel : cs.length < fuel) :
    lexStringF fuel ((cs.map escapeChar).flatten ++ '"' :: rest) acc
      = some (⟨acc.reverse ++ cs⟩, rest) := by
  induction cs generalizing acc fuel with
  | nil =>
    cases fuel with
    | zero => omega
    | succ f =>
      show (some (⟨acc.reverse⟩, rest) : Option (String × List Char)) = _
      simp
  | cons c cs2 ih =>
    cases fuel with
    | zero => omega
    | succ f =>
      have hsplit : (((c :: cs2).map escapeChar).flatten ++ '"' :: rest)
          = escapeChar c ++ ((cs2.map escapeChar).flatten ++ '"' :: rest) := by
        simp
      rw [hsplit, lexStringF_escape_step]
      rw [ih (c :: acc) f (by simp at hfuel; omega)]
      simp

theorem lexString_quote (s : String) (tl : List Char) :
    lexString ((s.data.map escapeChar).flatten ++ '"' :: tl) [] = some (s, tl) := by
  unfold lexString
  rw [lexStringF_escList s.data tl []
    (((s.data.map escapeChar).flatten ++ '"' :: tl).length + 1)
    (by
      have := escList_length_ge s.data
      simp only [List.length_append, List.length_cons]
      omega)]
  rfl

theorem natToDigits_zero : natToDigits 0 = ['0'] := by
  rw [natToDigits, dif_pos (by omega : (0 : Nat) < 10)]

theorem natToDigits_head_ne_zero (n : Nat) (h : n ≠ 0) :
    (natToDigits n).head? ≠ some '0' := by
  induction n using Nat.strong_induction_on with
  | _ n ih =>
    rw [natToDigits]
    by_cases h10 : n < 10
    · rw [dif_pos h10]
      intro hcon
      simp only [List.head?_cons, Option.some.injEq] at hcon
      have h1 : 1 ≤ n := by omega
      interval_cases n <;> revert hcon <;> decide
    · rw [dif_neg h10]
      have hne := natToDigits_ne_nil (n / 10)
      cases hd : natToDigits (n / 10) with
      | nil => exact absurd hd hne
      | cons d ds =>
        simp only [List.cons_append, List.head?_cons]
        have hih := ih (n / 10) (Nat.div_lt_self (by omega) (by omega)) (by omega)
        rw [hd] at hih
        simpa using hih

theorem dropDigits_append (ds tl : List Char) (hds : ∀ c ∈ ds, isDigitCh c = true)
    (htl : ∀ c, tl.head? = some c → isDigitCh c = false) :
    dropDigits (ds ++ tl) = tl := by
  induction ds with
  | nil =>
    cases tl with
    | nil => rfl
    | cons c r =>
      show dropDigits (c :: r) = c :: r
      rw [dropDigits, if_neg (by rw [htl c rfl]; exact Bool.false_ne_true)]
  | cons d ds2 ih =>
    rw [List.cons_append, dropDigits, if_pos (hds d (by simp))]
    exact ih (fun c hc => hds c (List.mem_cons_of_mem d hc))

theorem postValueOk_head (tl : List Char) (h : postValueOk tl = true) (c : Char)
    (hc : tl.head? = some c) :
    isDigitCh c = false ∧ c ≠ '.' ∧ c ≠ 'e' ∧ c ≠ 'E' := by
  cases tl with
  | nil => cases hc
  | cons c0 r =>
    simp only [List.head?_cons, Option.some.injEq] at hc
    subst hc
    rw [postValueOk] at h
    rcases Bool.or_eq_true _ _ |>.mp h with hx | hx
    · rcases Bool.or_eq_true _ _ |>.mp hx with hy | hy
      · rcases Bool.or_eq_true _ _ |>.mp hy with hz | hz
        · rw [isWsChar] at hz
          rcases Bool.or_eq_true _ _ |>.mp hz with hw | hw
          · rcases Bool.or_eq_true _ _ |>.mp hw with hv | hv
            · rcases Bool.or_eq_true _ _ |>.mp hv with hu | hu
              · rw [beq_iff_eq] at hu; subst hu; decide
              · rw [beq_iff_eq] at hu; subst hu; decide
            · rw [beq_iff_eq] at hv; subst hv; decide
          · rw [beq_iff_eq] at hw; subst hw; decide
        · rw [beq_iff_eq] at hz; subst hz; decide
      · rw [beq_iff_eq] at hy; subst hy; decide
    · rw [beq_iff_eq] at hx; subst hx; decide

theorem lexFracPart_id (tl : List Char) (h : ∀ c, tl.head? = some c → c ≠ '.') :
    lexFracPart tl = some tl := by
  cases tl with
  | nil => rfl
  | cons c r =>
    simp only [lexFracPart]
    rw [if_neg (h c rfl)]

theorem lexExpPart_id (tl : List Char) (h : ∀ c, tl.head? = some c → c ≠ 'e' ∧ c ≠ 'E') :
    lexExpPart tl = some tl := by
  cases tl with
  | nil => rfl
  | cons c r =>
    simp only [lexExpPart]
    rw [if_neg (by
      rintro (hcon | hcon)
      · exact (h c rfl).1 hcon
      · exact (h c rfl).2 hcon)]

theorem lexNumber_pos_digits (ds tl : List Char) (hne : ds ≠ [])
    (hdig : ∀ c ∈ ds, isDigitCh c = true)
    (hzero : ds.head? = some '0' → ds = ['0'])
    (htl : ∀ c, tl.head? = some c → isDigitCh c = false ∧ c ≠ '.' ∧ c ≠ 'e' ∧ c ≠ 'E') :
    lexNumber (ds ++ tl) = some tl := by
  cases ds with
  | nil => exact absurd rfl hne
  | cons d ds2 =>
    have hd : isDigitCh d = true := hdig d (by simp)
    have hdm : ¬d = '-' := by
      intro hcon
      subst hcon
      exact absurd hd (by decide)
    unfold lexNumber
    split
    · rename_i r heq
      exfalso
      rw [List.cons_append] at heq
      injection heq with h1 h2
      exact hdm h1
    · rename_i hne2
      show (if d = '0' then
          (match lexFracPart (ds2 ++ tl) with
            | some r2 => lexExpPart r2
            | none => none)
        else if isDigitCh d = true then
          (match lexFracPart (dropDigits (ds2 ++ tl)) with
            | some r2 => lexExpPart r2
            | none => none)
        else none) = some tl
      have hfrac : ∀ c, tl.head? = some c → c ≠ '.' := fun c hc => (htl c hc).2.1
      have hexp : ∀ c, tl.head? = some c → c ≠ 'e' ∧ c ≠ 'E' :=
        fun c hc => ⟨(htl c hc).2.2.1, (htl c hc).2.2.2⟩
      by_cases h0 : d = '0'
      · subst h0
        have hnil : ds2 = [] := by
          have hds2 : ('0' :: ds2) = ['0'] := hzero rfl
          injection hds2
        subst hnil
        rw [if_pos rfl]
        simp only [List.nil_append]
        rw [lexFracPart_id tl hfrac]
        exact lexExpPart_id tl hexp
      · rw [if_neg h0, if_pos hd]
        rw [dropDigits_append ds2 tl (fun c hc => hdig c (List.mem_cons_of_mem d hc))
          (fun c hc => (htl c hc).1)]
        rw [lexFracPart_id tl hfrac]
        exact lexExpPart_id tl hexp

theorem natToDigits_facts (n : Nat) :
    natToDigits n ≠ [] ∧ (∀ c ∈ natToDigits n, isDigitCh c = true)
      ∧ ((natToDigits n).head? = some '0' → natToDigits n = ['0']) := by
  refine ⟨natToDigits_ne_nil n, ?_, ?_⟩
  · intro c hc
    have := natToDigits_digits n c hc
    unfold isDigitCh
    exact decide_eq_true this
  · intro h0
    by_cases hn : n = 0
    · subst hn
      exact natToDigits_zero
    · exact absurd h0 (natToDigits_head_ne_zero n hn)

theorem lexNumber_intToDec (i : Int) (tl : List Char) (htlOk : postValueOk tl = true) :
    lexNumber ((intToDec i).data ++ tl) = some tl := by
  obtain ⟨hne, hdig, hzero⟩ := natToDigits_facts i.natAbs
  have htl : ∀ c, tl.head? = some c → isDigitCh c = false ∧ c ≠ '.' ∧ c ≠ 'e' ∧ c ≠ 'E' :=
    fun c hc => postValueOk_head tl htlOk c hc
  unfold intToDec
  split_ifs with hneg
  · show lexNumber ('-' :: (natToDigits i.natAbs ++ tl)) = some tl
    unfold lexNumber
    split
    · rename_i r heq
      injection heq with h1 h2
      subst h2
      show (match natToDigits i.natAbs ++ tl with
        | [] => none
        | c :: r =>
          if c = '0' then
            (match lexFracPart r with
              | some r2 => lexExpPart r2
              | none => none)
          else
            if isDigitCh c = true then
              (match lexFracPart (dropDigits r) with
                | some r2 => lexExpPart r2
                | none => none)
            else none) = some tl
      cases hds : natToDigits i.natAbs with
      | nil => exact absurd hds hne
      | cons d ds2 =>
        have hd : isDigitCh d = true := by
          apply hdig
          rw [hds]
          simp
        rw [List.cons_append]
        show (if d = '0' then
            (match lexFracPart (ds2 ++ tl) with
              | some r2 => lexExpPart r2
              | none => none)
          else if isDigitCh d = true then
            (match lexFracPart (dropDigits (ds2 ++ tl)) with
              | some r2 => lexExpPart r2
              | none => none)
          else none) = some tl
        have hfrac : ∀ c, tl.head? = some c → c ≠ '.' := fun c hc => (htl c hc).2.1
        have hexp : ∀ c, tl.head? = some c → c ≠ 'e' ∧ c ≠ 'E' :=
          fun c hc => ⟨(htl c hc).2.2.1, (htl c hc).2.2.2⟩
        by_cases h0 : d = '0'
        · subst h0
          have hnil : ds2 = [] := by
            have hds2 : ('0' :: ds2) = ['0'] := by
              rw [← hds]
              apply hzero
              rw [hds]
              rfl
            injection hds2
          subst hnil
          rw [if_pos rfl]
          simp only [List.nil_append]
          rw [lexFracPart_id tl hfrac]
          exact lexExpPart_id tl hexp
        · rw [if_neg h0, if_pos hd]
          rw [dropDigits_append ds2 tl (fun c hc => by
              apply hdig
              rw [hds]
              exact List.mem_cons_of_mem d hc)
            (fun c hc => (htl c hc).1)]
          rw [lexFracPart_id tl hfrac]
          exact lexExpPart_id tl hexp
    · rename_i hne2
      exact absurd rfl (hne2 (natToDigits i.natAbs ++ tl))
  · show lexNumber (natToDigits i.natAbs ++ tl) = some tl
    exact lexNumber_pos_digits (natToDigits i.natAbs) tl hne hdig hzero htl

/-! ### The token stream of a rendered value -/

mutual

/-- The tokens `encoding/json` yields for `writeValue v order` (independent
of indentation and depth; compact and multi-line arrays tokenize alike). -/
def tokensOfValue : JValue → Option KeyOrder → List JToken
  | JValue.jobj m, o =>
      JToken.lbrace :: tokensOfFields m o (orderedKeysForMap m o) ++ [JToken.rbrace]
  | JValue.jarr a, _ => JToken.lbrack :: tokensOfElems a ++ [JToken.rbrack]
  | JValue.jstr s, _ => [JToken.tstr s]
  | _, _ => [JToken.tother]
termination_by v _ => (3 * sizeOf v, 0)

/-- Tokens of an object's members for the given key sequence. -/
def tokensOfFields (m : List (String × JValue)) (o : Option KeyOrder) :
    List String → List JToken
  | [] => []
  | k :: rest =>
      JToken.tstr k :: tokensOfValue (lookupD m k) (childOrderOf o k)
        ++ tokensOfFields m o rest
termination_by keys => (3 * sizeOf m + 1, keys.length)
decreasing_by
· have h := sizeOf_lookupD m y
  exact Prod.Lex.left _ _ (by omega)
· exact Prod.Lex.right _ (by simp)

/-- Tokens of an array's elements. -/
def tokensOfElems : List JValue → List JToken
  | [] => []
  | v :: rest => tokensOfValue v none ++ tokensOfElems rest
termination_by a => (3 * sizeOf a + 1, 0)

end

theorem writeScalar_head (v : JValue) (h : isContainer v = false) :
    ∃ c cs, (writeScalar v).data = c :: cs ∧ isWsChar c = false
      ∧ c ≠ ']' ∧ c ≠ '\x7d' ∧ c ≠ ',' := by
  cases v with
  | jnull => exact ⟨'n', _, rfl, by decide, by decide, by decide, by decide⟩
  | jbool b => cases b
                 <;> [exact ⟨'f', _, rfl, by decide, by decide, by decide, by decide⟩;
                      exact ⟨'t', _, rfl, by decide, by decide, by decide, by decide⟩]
  | jnum n =>
    show ∃ c cs, (intToDec n).data = c :: cs ∧ _
    unfold intToDec
    split_ifs with hneg
    · exact ⟨'-', _, rfl, by decide, by decide, by decide, by decide⟩
    · cases hds : natToDigits n.natAbs with
      | nil => exact absurd hds (natToDigits_ne_nil _)
      | cons d ds =>
        have hd : 48 ≤ d.toNat ∧ d.toNat ≤ 57 := by
          apply natToDigits_digits
          rw [hds]
          simp
        refine ⟨d, ds, rfl, ?_, ?_, ?_, ?_⟩
        · unfold isWsChar
          have h32 : (' ').toNat = 32 := by decide
          have h9 : ('\t').toNat = 9 := by decide
          have h10 : ('\n').toNat = 10 := by decide
          have h13 : ('\x0d').toNat = 13 := by decide
          simp only [Bool.or_eq_false_iff, beq_eq_false_iff_ne]
          refine ⟨⟨⟨?_, ?_⟩, ?_⟩, ?_⟩ <;>
            (intro hcon; rw [char_eq_iff_toNat] at hcon; omega)
        · intro hcon; rw [char_eq_iff_toNat] at hcon
          have h93 : (']').toNat = 93 := by decide
          omega
        · intro hcon; rw [char_eq_iff_toNat] at hcon
          have h125 : ('\x7d').toNat = 125 := by decide
          omega
        · intro hcon; rw [char_eq_iff_toNat] at hcon
          have h44 : (',').toNat = 44 := by decide
          omega
  | jstr s => exact ⟨'"', _, rfl, by decide, by decide, by decide, by decide⟩
  | jarr a => exact absurd h (by simp [isContainer])
  | jobj m => exact absurd h (by simp [isContainer])

theorem lexValueF_scalar (v : JValue) (hv : isContainer v = false) (tl : List Char)
    (fuel : Nat) (htl : postValueOk tl = true) :
    lexValueF (fuel + 1) ((writeScalar v).data ++ tl) = (tokensOfValue v none, some tl) := by
  cases v with
  | jnull =>
    have h1 : lexValueF (fuel + 1) ((writeScalar JValue.jnull).data ++ tl)
        = if postValueOk tl = true then ([JToken.tother], some tl) else ([], none) := rfl
    rw [h1, if_pos htl]
    simp [tokensOfValue]
  | jbool b =>
    cases b with
    | false =>
      have h1 : lexValueF (fuel + 1) ((writeScalar (JValue.jbool false)).data ++ tl)
          = if postValueOk tl = true then ([JToken.tother], some tl) else ([], none) := rfl
      rw [h1, if_pos htl]
      simp [tokensOfValue]
    | true =>
      have h1 : lexValueF (fuel + 1) ((writeScalar (JValue.jbool true)).data ++ tl)
          = if postValueOk tl = true then ([JToken.tother], some tl) else ([], none) := rfl
      rw [h1, if_pos htl]
      simp [tokensOfValue]
  | jstr s =>
    have hcs : (writeScalar (JValue.jstr s)).data ++ tl
        = '"' :: ((s.data.map escapeChar).flatten ++ '"' :: tl) := by
      show ('"' :: ((s.data.map escapeChar).flatten ++ ['"'])) ++ tl = _
      simp
    rw [hcs]
    have h1 : lexValueF (fuel + 1) ('"' :: ((s.data.map escapeChar).flatten ++ '"' :: tl))
        = (match lexString ((s.data.map escapeChar).flatten ++ '"' :: tl) [] with
           | some (s2, r2) => ([JToken.tstr s2], some r2)
           | none => ([], none)) := by
      rw [lexValueF]
      rw [skipWs_cons_not_ws _ _ (by decide)]
      rfl
    rw [h1, lexString_quote]
    simp [tokensOfValue]
  | jnum n =>
    obtain ⟨d, rest2, hdata, hws, hbr, hbr2, hbr3⟩ :=
      writeScalar_head (JValue.jnum n) (by simp [isContainer])
    have hsplit : (writeScalar (JValue.jnum n)).data ++ tl = d :: (rest2 ++ tl) := by
      rw [hdata]
      rfl
    have hnum : lexNumber (d :: (rest2 ++ tl)) = some tl := by
      rw [← hsplit]
      show lexNumber ((intToDec n).data ++ tl) = some tl
      exact lexNumber_intToDec n tl htl
    -- the head is either '-' or a digit
    have hd : d = '-' ∨ isDigitCh d = true := by
      have : (writeScalar (JValue.jnum n)).data = (intToDec n).data := rfl
      rw [this] at hdata
      revert hdata
      unfold intToDec
      split_ifs with hneg
      · intro hdata
        injection hdata with h1 h2
        exact Or.inl h1.symm
      · intro hdata
        right
        have hmem : d ∈ natToDigits n.natAbs := by
          have : (⟨natToDigits n.natAbs⟩ : String).data = natToDigits n.natAbs := rfl
          rw [this] at hdata
          rw [hdata]
          simp
        have := natToDigits_digits _ _ hmem
        unfold isDigitCh
        exact decide_eq_true this
    rw [hsplit]
    rw [lexValueF]
    rw [skipWs_cons_not_ws _ _ hws]
    dsimp only
    have hne1 : ¬d = '\x7b' := by
      rcases hd with rfl | hdig
      · decide
      · intro hcon
        subst hcon
        exact absurd hdig (by decide)
    have hne2 : ¬d = '[' := by
      rcases hd with rfl | hdig
      · decide
      · intro hcon
        subst hcon
        exact absurd hdig (by decide)
    have hne3 : ¬d = '"' := by
      rcases hd with rfl | hdig
      · decide
      · intro hcon
        subst hcon
        exact absurd hdig (by decide)
    rw [if_neg hne1, if_neg hne2, if_neg hne3, if_pos hd]
    rw [hnum]
    dsimp only
    rw [if_pos htl]
    simp [tokensOfValue]
  | jarr a => exact absurd hv (by simp [isContainer])
  | jobj m => exact absurd hv (by simp [isContainer])

theorem lexValueF_ws_append (ws cs : List Char) (fuel : Nat)
    (h : ∀ c ∈ ws, isWsChar c = true) :
    lexValueF (fuel + 1) (ws ++ cs) = lexValueF (fuel + 1) cs := by
  rw [lexValueF, lexValueF, skipWs_ws_append ws cs h]

theorem writeValue_head (v : JValue) (o : Option KeyOrder) (ind : String) (d : Nat) :
    ∃ c cs, (writeValue v o ind d).data = c :: cs ∧ isWsChar c = false
      ∧ c ≠ ']' ∧ c ≠ '\x7d' ∧ c ≠ ',' := by
  cases v with
  | jobj m =>
    have hv : writeValue (JValue.jobj m) o ind d = writeObject m o ind d := by
      rw [writeValue]
    rw [hv, writeObject]
    split_ifs with he
    · exact ⟨'\x7b', _, rfl, by decide, by decide, by decide, by decide⟩
    · exact ⟨'\x7b', _, rfl, by decide, by decide, by decide, by decide⟩
  | jarr a =>
    have hv : writeValue (JValue.jarr a) o ind d = writeArray a ind d := by
      rw [writeValue]
    rw [hv, writeArray]
    split_ifs with h1 h2
    · exact ⟨'[', _, rfl, by decide, by decide, by decide, by decide⟩
    · exact ⟨'[', _, rfl, by decide, by decide, by decide, by decide⟩
    · exact ⟨'[', _, rfl, by decide, by decide, by decide, by decide⟩
  | jnull =>
    have hv : writeValue JValue.jnull o ind d = writeScalar JValue.jnull := by
      rw [writeValue] <;> exact fun x h => JValue.noConfusion h
    rw [hv]
    exact writeScalar_head JValue.jnull rfl
  | jbool b =>
    have hv : writeValue (JValue.jbool b) o ind d = writeScalar (JValue.jbool b) := by
      rw [writeValue] <;> exact fun x h => JValue.noConfusion h
    rw [hv]
    exact writeScalar_head (JValue.jbool b) rfl
  | jnum n =>
    have hv : writeValue (JValue.jnum n) o ind d = writeScalar (JValue.jnum n) := by
      rw [writeValue] <;> exact fun x h => JValue.noConfusion h
    rw [hv]
    exact writeScalar_head (JValue.jnum n) rfl
  | jstr s =>
    have hv : writeValue (JValue.jstr s) o ind d = writeScalar (JValue.jstr s) := by
      rw [writeValue] <;> exact fun x h => JValue.noConfusion h
    rw [hv]
    exact writeScalar_head (JValue.jstr s) rfl

theorem writeValue_length_pos (v : JValue) (o : Option KeyOrder) (ind : String) (d : Nat) :
    1 ≤ (writeValue v o ind d).data.length := by
  obtain ⟨c, cs, hd, -⟩ := writeValue_head v o ind d
  rw [hd]
  simp

/-- The character-level shape of `joinComma`'s separators: the tail of a
compact array rendering after its first element. -/
def tailJoin : List JValue → List Char
  | [] => []
  | v :: rest => ',' :: ' ' :: (writeScalar v).data ++ tailJoin rest

theorem joinComma_data (v : JValue) (vs : List JValue) :
    (joinComma ((v :: vs).map writeScalar)).data
      = (writeScalar v).data ++ tailJoin vs := by
  induction vs generalizing v with
  | nil => simp [joinComma, tailJoin]
  | cons w ws ih =>
    have h1 : joinComma ((v :: w :: ws).map writeScalar)
        = writeScalar v ++ ", " ++ joinComma ((w :: ws).map writeScalar) := by
      simp [joinComma]
    rw [h1]
    show (writeScalar v).data ++ (", ").data ++ (joinComma ((w :: ws).map writeScalar)).data
      = _
    rw [ih w]
    simp [tailJoin]

theorem postValueOk_tailJoin (vs : List JValue) (tl : List Char) :
    postValueOk (tailJoin vs ++ ']' :: tl) = true := by
  cases vs with
  | nil => rfl
  | cons w ws => rfl

/-- Lexing the rest of a compact (all-scalar, one-line) array after its
first element: each `", "`-separated scalar yields its token, and the
closing bracket ends the array. -/
theorem lexA_compactTail (vs : List JValue) (hall : ∀ v ∈ vs, isContainer v = false)
    (tl : List Char) (fuel : Nat) (hf : (tailJoin vs).length + 1 ≤ fuel) :
    lexArrTailF fuel (tailJoin vs ++ ']' :: tl)
      = (tokensOfElems vs ++ [JToken.rbrack], some tl) := by
  induction vs generalizing fuel with
  | nil =>
    cases fuel with
    | zero => omega
    | succ f =>
      show lexArrTailF (f + 1) (']' :: tl) = _
      rw [lexArrTailF, skipWs_cons_not_ws _ _ (by decide)]
      simp [tokensOfElems]
  | cons w ws ih =>
    cases fuel with
    | zero => simp [tailJoin] at hf
    | succ f =>
      have hsplit : tailJoin (w :: ws) ++ ']' :: tl
          = ',' :: (' ' :: ((writeScalar w).data ++ (tailJoin ws ++ ']' :: tl))) := by
        simp [tailJoin]
      rw [hsplit, lexArrTailF, skipWs_cons_not_ws _ _ (by decide)]
      dsimp only
      rw [if_neg (show ¬(',' : Char) = ']' from by decide), if_pos rfl]
      have hlen : 2 + (writeScalar w).data.length + (tailJoin ws).length + 1 ≤ f + 1 := by
        have : (tailJoin (w :: ws)).length
            = 2 + (writeScalar w).data.length + (tailJoin ws).length := by
          simp [tailJoin]
          omega
        omega
      cases f with
      | zero => omega
      | succ f2 =>
        have hv : lexValueF (f2 + 1) (' ' :: ((writeScalar w).data ++ (tailJoin ws ++ ']' :: tl)))
            = (tokensOfValue w none, some (tailJoin ws ++ ']' :: tl)) := by
          have h1 : (' ' :: ((writeScalar w).data ++ (tailJoin ws ++ ']' :: tl)))
              = [' '] ++ ((writeScalar w).data ++ (tailJoin ws ++ ']' :: tl)) := rfl
          rw [h1, lexValueF_ws_append _ _ _ (by intro c hc; simp at hc; rw [hc]; rfl)]
          exact lexValueF_scalar w (hall w (by simp)) _ f2 (postValueOk_tailJoin ws tl)
        rw [hv]
        dsimp only
        rw [ih (fun v hv2 => hall v (List.mem_cons_of_mem w hv2)) (f2 + 1) (by omega)]
        simp [tokensOfElems]

theorem colonSpace_data : (": " : String).data = [':', ' '] := rfl

theorem newline_data : ("\n" : String).data = ['\n'] := rfl

theorem comma_data : ("," : String).data = [','] := rfl

theorem empty_data : ("" : String).data = ([] : List Char) := rfl

theorem obrace_nl_data : ("\x7b\n" : String).data = ['\x7b', '\n'] := rfl

theorem cbrace_data : ("\x7d" : String).data = ['\x7d'] := rfl

theorem obrack_nl_data : ("[\n" : String).data = ['[', '\n'] := rfl

theorem cbrack_data : ("]" : String).data = [']'] := rfl

theorem postValueOk_sep (b : Bool) (X : List Char) :
    postValueOk ((if b then ([] : List Char) else [',']) ++ '\n' :: X) = true := by
  cases b <;> rfl

theorem writeFields_nil_data (m : List (String × JValue)) (o : Option KeyOrder) (d : Nat) :
    (writeFields m o [] "  " d).data = [] := by
  rw [writeFields]

theorem writeArrayLines_nil_data (d : Nat) :
    (writeArrayLines [] "  " d).data = [] := by
  rw [writeArrayLines]

theorem tokensOfFields_nil (m : List (String × JValue)) (o : Option KeyOrder) :
    tokensOfFields m o [] = [] := by
  rw [tokensOfFields]

theorem tokensOfValue_scalar (v : JValue) (h : isContainer v = false) (o : Option KeyOrder) :
    tokensOfValue v o = tokensOfValue v none := by
  cases v <;> simp_all [isContainer, tokensOfValue]

theorem writeFields_cons_data (m : List (String × JValue)) (o : Option KeyOrder)
    (k : String) (ks : List String) (d : Nat) :
    (writeFields m o (k :: ks) "  " d).data
      = (repeatStr "  " (d + 1)).data ++ '"' :: ((k.data.map escapeChar).flatten
          ++ '"' :: ':' :: ' ' :: ((writeValue (lookupD m k) (childOrderOf o k) "  " (d + 1)).data
          ++ ((if ks.isEmpty then ([] : List Char) else [','])
          ++ '\n' :: (writeFields m o ks "  " d).data))) := by
  rw [writeFields]
  cases ks <;>
    simp [str_data_append, jsonQuote, colonSpace_data, newline_data, comma_data,
      empty_data, List.append_assoc]

theorem writeArrayLines_cons_data (v : JValue) (rest : List JValue) (d : Nat) :
    (writeArrayLines (v :: rest) "  " d).data
      = (repeatStr "  " (d + 1)).data ++ ((writeValue v none "  " (d + 1)).data
          ++ ((if rest.isEmpty then ([] : List Char) else [','])
          ++ '\n' :: (writeArrayLines rest "  " d).data)) := by
  rw [writeArrayLines]
  cases rest <;>
    simp [str_data_append, newline_data, comma_data, empty_data, List.append_assoc]

theorem writeObject_nonempty_data (m : List (String × JValue)) (o : Option KeyOrder)
    (d : Nat) (hm : m.isEmpty = false) :
    (writeObject m o "  " d).data
      = '\x7b' :: '\n' :: ((writeFields m o (orderedKeysForMap m o) "  " d).data
          ++ ((repeatStr "  " d).data ++ ['\x7d'])) := by
  rw [writeObject, if_neg (by rw [hm]; exact Bool.noConfusion)]
  simp [str_data_append, obrace_nl_data, cbrace_data, List.append_assoc]

theorem orderedKeysForMap_nil (o : Option KeyOrder) : orderedKeysForMap [] o = [] := by
  cases o with
  | none => rfl
  | some o2 => simp [orderedKeysForMap, keysOf, memKey, lookupKV, sortStrings]

theorem obrack_data : ("[" : String).data = ['['] := rfl

theorem lexValueF_cons_ws (c : Char) (X : List Char) (fuel : Nat) (h : isWsChar c = true) :
    lexValueF (fuel + 1) (c :: X) = lexValueF (fuel + 1) X := by
  rw [lexValueF, lexValueF, skipWs_cons_ws _ _ h]

theorem lexA_scalarValue (v : JValue) (hv : isContainer v = false) (o : Option KeyOrder)
    (d : Nat) (tl : List Char) (fuel : Nat) (htl : postValueOk tl = true)
    (hf : 1 ≤ fuel) :
    lexValueF fuel ((writeValue v o "  " d).data ++ tl) = (tokensOfValue v o, some tl) := by
  have hveq : writeValue v o "  " d = writeScalar v := by
    cases v <;> first
      | (rw [writeValue] <;> exact fun x h => JValue.noConfusion h)
      | simp [isContainer] at hv
  rw [hveq]
  cases fuel with
  | zero => omega
  | succ f =>
    rw [lexValueF_scalar v hv tl f htl, tokensOfValue_scalar v hv o]

mutual

/-- Lexing the rendered form of a value (with two-space indent at depth `d`)
followed by a valid post-value character yields exactly the value's token
stream, leaving the tail untouched. -/
theorem lexA_value (v : JValue) (o : Option KeyOrder) (d : Nat) (tl : List Char)
    (fuel : Nat) (htl : postValueOk tl = true)
    (hf : (writeValue v o "  " d).data.length ≤ fuel) :
    lexValueF fuel ((writeValue v o "  " d).data ++ tl)
      = (tokensOfValue v o, some tl) := by
  cases v with
  | jnull =>
    exact lexA_scalarValue JValue.jnull rfl o d tl fuel htl
      (le_trans (writeValue_length_pos _ o _ d) hf)
  | jbool b =>
    exact lexA_scalarValue (JValue.jbool b) rfl o d tl fuel htl
      (le_trans (writeValue_length_pos _ o _ d) hf)
  | jnum n =>
    exact lexA_scalarValue (JValue.jnum n) rfl o d tl fuel htl
      (le_trans (writeValue_length_pos _ o _ d) hf)
  | jstr s =>
    exact lexA_scalarValue (JValue.jstr s) rfl o d tl fuel htl
      (le_trans (writeValue_length_pos _ o _ d) hf)
  | jobj m =>
    have hveq : writeValue (JValue.jobj m) o "  " d = writeObject m o "  " d := by
      rw [writeValue]
    rw [hveq] at hf ⊢
    cases hm : m.isEmpty with
    | true =>
      have hm2 : m = [] := List.isEmpty_iff.mp hm
      subst hm2
      have hob : writeObject [] o "  " d = "\x7b\x7d" := by
        simp [writeObject]
      rw [hob] at hf ⊢
      have h2 : ("\x7b\x7d" : String).data.length = 2 := rfl
      rw [h2] at hf
      cases fuel with
      | zero => omega
      | succ f =>
        rw [show ("\x7b\x7d" : String).data ++ tl = '\x7b' :: '\x7d' :: tl from rfl]
        rw [lexValueF, skipWs_cons_not_ws _ _ (by decide)]
        try dsimp only
        rw [if_pos rfl]
        cases f with
        | zero => omega
        | succ f2 =>
          have hr : lexObjStartF (f2 + 1) ('\x7d' :: tl) = ([JToken.rbrace], some tl) := by
            rw [lexObjStartF, skipWs_cons_not_ws _ _ (by decide)]
            try dsimp only
            rw [if_pos rfl]
          rw [hr]
          simp [tokensOfValue, orderedKeysForMap_nil, tokensOfFields_nil]
    | false =>
      have hod := writeObject_nonempty_data m o d hm
      have hlen := hf
      rw [hod] at hlen
      simp only [List.length_append, List.length_cons] at hlen
      cases fuel with
      | zero => omega
      | succ f =>
        rw [hod]
        simp only [List.cons_append, List.append_assoc, List.nil_append]
        rw [lexValueF, skipWs_cons_not_ws _ _ (by decide)]
        try dsimp only
        rw [if_pos rfl]
        try dsimp only
        rw [lexA_objStart m o (orderedKeysForMap m o) d tl f (by omega)]
        simp [tokensOfValue]
  | jarr a =>
    have hveq : writeValue (JValue.jarr a) o "  " d = writeArray a "  " d := by
      rw [writeValue]
    rw [hveq] at hf ⊢
    rw [writeArray] at hf ⊢
    split_ifs at hf ⊢ with ha hsc
    · have ha2 : a = [] := List.isEmpty_iff.mp ha
      subst ha2
      have h2 : ("[]" : String).data.length = 2 := rfl
      rw [h2] at hf
      cases fuel with
      | zero => omega
      | succ f =>
        rw [show ("[]" : String).data ++ tl = '[' :: ']' :: tl from rfl]
        rw [lexValueF, skipWs_cons_not_ws _ _ (by decide)]
        try dsimp only
        rw [if_neg (show ¬('[' : Char) = '\x7b' from by decide), if_pos rfl]
        cases f with
        | zero => omega
        | succ f2 =>
          have hr : lexArrStartF (f2 + 1) (']' :: tl) = ([JToken.rbrack], some tl) := by
            rw [lexArrStartF, skipWs_cons_not_ws _ _ (by decide)]
            try dsimp only
            rw [if_pos rfl]
          rw [hr]
          simp [tokensOfValue, tokensOfElems]
    · cases a with
      | nil => simp at ha
      | cons v1 vs =>
        have hall : ∀ w ∈ v1 :: vs, isContainer w = false := by
          intro w hw
          have h2 := List.all_eq_true.mp hsc w hw
          simpa using h2
        have hlist : ("[" ++ joinComma ((v1 :: vs).map writeScalar) ++ "]").data
            = '[' :: ((writeScalar v1).data ++ (tailJoin vs ++ [']'])) := by
          have h1 : ("[" ++ joinComma ((v1 :: vs).map writeScalar) ++ "]").data
              = ("[" : String).data ++ ((joinComma ((v1 :: vs).map writeScalar)).data
                ++ ("]" : String).data) := by
            simp [str_data_append]
          rw [h1, joinComma_data v1 vs, obrack_data, cbrack_data]
          simp [List.append_assoc]
        have hlen := hf
        rw [hlist] at hlen
        obtain ⟨c0, cs0, hd0, hws0, hbr0, hbr0b, hbr0c⟩ :=
          writeScalar_head v1 (hall v1 (by simp))
        rw [hd0] at hlen
        simp only [List.length_append, List.length_cons] at hlen
        rw [hlist]
        simp only [List.cons_append, List.append_assoc, List.nil_append]
        cases fuel with
        | zero => omega
        | succ f =>
          rw [lexValueF, skipWs_cons_not_ws _ _ (by decide)]
          try dsimp only
          rw [if_neg (show ¬('[' : Char) = '\x7b' from by decide), if_pos rfl]
          try dsimp only
          have harr : lexArrStartF f ((writeScalar v1).data ++ (tailJoin vs ++ ']' :: tl))
              = (tokensOfValue v1 none ++ (tokensOfElems vs ++ [JToken.rbrack]),
                 some tl) := by
            cases f with
            | zero => omega
            | succ f2 =>
              rw [hd0, List.cons_append]
              rw [lexArrStartF, skipWs_cons_not_ws _ _ hws0]
              try dsimp only
              rw [if_neg hbr0]
              cases f2 with
              | zero => omega
              | succ f3 =>
                have hv2 : lexValueF (f3 + 1) (c0 :: (cs0 ++ (tailJoin vs ++ ']' :: tl)))
                    = (tokensOfValue v1 none, some (tailJoin vs ++ ']' :: tl)) := by
                  rw [← List.cons_append, ← hd0]
                  exact lexValueF_scalar v1 (hall v1 (by simp)) _ f3
                    (postValueOk_tailJoin vs tl)
                rw [hv2]
                try dsimp only
                rw [lexA_compactTail vs (fun w hw => hall w (List.mem_cons_of_mem v1 hw))
                  tl (f3 + 1) (by omega)]
          rw [harr]
          simp [tokensOfValue, tokensOfElems, List.append_assoc]
    · cases a with
      | nil => simp at ha
      | cons v1 vs =>
        have hlist : ("[\n" ++ writeArrayLines (v1 :: vs) "  " d ++ repeatStr "  " d
              ++ "]").data
            = '[' :: '\n' :: ((writeArrayLines (v1 :: vs) "  " d).data
                ++ ((repeatStr "  " d).data ++ [']'])) := by
          simp [str_data_append, obrack_nl_data, cbrack_data, List.append_assoc]
        have hwl := writeArrayLines_cons_data v1 vs d
        have hlen := hf
        rw [hlist, hwl] at hlen
        simp only [List.length_append, List.length_cons] at hlen
        rw [hlist]
        simp only [List.cons_append, List.append_assoc, List.nil_append]
        cases fuel with
        | zero => omega
        | succ f =>
          rw [lexValueF, skipWs_cons_not_ws _ _ (by decide)]
          try dsimp only
          rw [if_neg (show ¬('[' : Char) = '\x7b' from by decide), if_pos rfl]
          try dsimp only
          have harr : lexArrStartF f ('\n' :: ((writeArrayLines (v1 :: vs) "  " d).data
                ++ ((repeatStr "  " d).data ++ ']' :: tl)))
              = (tokensOfElems (v1 :: vs) ++ [JToken.rbrack], some tl) := by
            cases f with
            | zero => omega
            | succ f2 =>
              rw [hwl]
              simp only [List.cons_append, List.append_assoc, List.nil_append]
              rw [lexArrStartF, skipWs_cons_ws _ _ (by decide),
                skipWs_ws_append _ _ (repeatStr_indent_ws (d + 1))]
              obtain ⟨c0, cs0, hd0, hws0, hbr0, hbr0b, hbr0c⟩ :=
                writeValue_head v1 none "  " (d + 1)
              rw [hd0, List.cons_append, skipWs_cons_not_ws _ _ hws0]
              try dsimp only
              rw [if_neg hbr0]
              have hv2 : lexValueF f2 (c0 :: (cs0
                    ++ ((if vs.isEmpty then ([] : List Char) else [','])
                    ++ '\n' :: ((writeArrayLines vs "  " d).data
                    ++ ((repeatStr "  " d).data ++ ']' :: tl)))))
                  = (tokensOfValue v1 none,
                     some ((if vs.isEmpty then ([] : List Char) else [','])
                       ++ '\n' :: ((writeArrayLines vs "  " d).data
                       ++ ((repeatStr "  " d).data ++ ']' :: tl)))) := by
                rw [← List.cons_append, ← hd0]
                cases f2 with
                | zero => omega
                | succ f3 =>
                  exact lexA_value v1 none (d + 1) _ (f3 + 1)
                    (postValueOk_sep vs.isEmpty _) (by omega)
              rw [hv2]
              try dsimp only
              rw [lexA_arrLines vs d tl f2 (by omega)]
              simp [tokensOfElems, List.append_assoc]
          rw [harr]
          simp [tokensOfValue]
termination_by (3 * sizeOf v, 0)
decreasing_by
all_goals subst_vars
all_goals exact Prod.Lex.left _ _ (by
  simp only [JValue.jobj.sizeOf_spec, JValue.jarr.sizeOf_spec, List.cons.sizeOf_spec]
  omega)

/-- Lexing an object body (right after the opening brace) rendered from the
given key list: the members' tokens then the closing brace. -/
theorem lexA_objStart (m : List (String × JValue)) (o : Option KeyOrder)
    (keys : List String) (d : Nat) (tl : List Char) (fuel : Nat)
    (hf : (writeFields m o keys "  " d).data.length + 1 ≤ fuel) :
    lexObjStartF fuel
      ('\n' :: ((writeFields m o keys "  " d).data
        ++ ((repeatStr "  " d).data ++ '\x7d' :: tl)))
      = (tokensOfFields m o keys ++ [JToken.rbrace], some tl) := by
  cases keys with
  | nil =>
    cases fuel with
    | zero => omega
    | succ f =>
      rw [writeFields_nil_data, List.nil_append]
      rw [lexObjStartF, skipWs_cons_ws _ _ (by decide),
        skipWs_ws_append _ _ (repeatStr_indent_ws d),
        skipWs_cons_not_ws _ _ (by decide)]
      try dsimp only
      rw [if_pos rfl]
      simp [tokensOfFields_nil]
  | cons k ks =>
    have hwf := writeFields_cons_data m o k ks d
    have hlen := hf
    rw [hwf] at hlen
    simp only [List.length_append, List.length_cons] at hlen
    cases fuel with
    | zero => omega
    | succ f =>
      rw [hwf]
      simp only [List.cons_append, List.append_assoc, List.nil_append]
      rw [lexObjStartF, skipWs_cons_ws _ _ (by decide),
        skipWs_ws_append _ _ (repeatStr_indent_ws (d + 1)),
        skipWs_cons_not_ws _ _ (by decide)]
      try dsimp only
      rw [if_neg (show ¬('"' : Char) = '\x7d' from by decide), if_pos rfl]
      rw [lexString_quote]
      try dsimp only
      rw [skipWs_cons_not_ws ':' _ (by decide)]
      simp only []
      have hv : lexValueF f (' ' :: ((writeValue (lookupD m k) (childOrderOf o k)
              "  " (d + 1)).data
            ++ ((if ks.isEmpty then ([] : List Char) else [','])
            ++ '\n' :: ((writeFields m o ks "  " d).data
            ++ ((repeatStr "  " d).data ++ '\x7d' :: tl)))))
          = (tokensOfValue (lookupD m k) (childOrderOf o k),
             some ((if ks.isEmpty then ([] : List Char) else [','])
               ++ '\n' :: ((writeFields m o ks "  " d).data
               ++ ((repeatStr "  " d).data ++ '\x7d' :: tl)))) := by
        cases f with
        | zero => omega
        | succ f2 =>
          rw [lexValueF_cons_ws ' ' _ _ (by decide)]
          exact lexA_value (lookupD m k) (childOrderOf o k) (d + 1) _ (f2 + 1)
            (postValueOk_sep ks.isEmpty _) (by omega)
      rw [hv]
      try dsimp only
      rw [lexA_objTail m o ks d tl f (by omega)]
      simp [tokensOfFields, List.append_assoc]
termination_by (3 * sizeOf m + 1, keys.length)
decreasing_by
all_goals subst_vars
· have h := sizeOf_lookupD m k
  exact Prod.Lex.left _ _ (by omega)
· exact Prod.Lex.right _ (by simp)

/-- Lexing the continuation of an object body after a member: a comma and
the next member, or the closing brace when the key list is exhausted. -/
theorem lexA_objTail (m : List (String × JValue)) (o : Option KeyOrder)
    (keys : List String) (d : Nat) (tl : List Char) (fuel : Nat)
    (hf : (writeFields m o keys "  " d).data.length + 1 ≤ fuel) :
    lexObjTailF fuel
      ((if keys.isEmpty then ([] : List Char) else [','])
        ++ '\n' :: ((writeFields m o keys "  " d).data
        ++ ((repeatStr "  " d).data ++ '\x7d' :: tl)))
      = (tokensOfFields m o keys ++ [JToken.rbrace], some tl) := by
  cases keys with
  | nil =>
    cases fuel with
    | zero => omega
    | succ f =>
      rw [show (if ([] : List String).isEmpty then ([] : List Char) else [','])
          = ([] : List Char) from rfl,
        List.nil_append, writeFields_nil_data, List.nil_append]
      rw [lexObjTailF, skipWs_cons_ws _ _ (by decide),
        skipWs_ws_append _ _ (repeatStr_indent_ws d),
        skipWs_cons_not_ws _ _ (by decide)]
      try dsimp only
      rw [if_pos rfl]
      simp [tokensOfFields_nil]
  | cons k ks =>
    have hwf := writeFields_cons_data m o k ks d
    have hlen := hf
    rw [hwf] at hlen
    simp only [List.length_append, List.length_cons] at hlen
    cases fuel with
    | zero => omega
    | succ f =>
      rw [if_neg (show ¬((k :: ks).isEmpty = true) by simp), hwf]
      simp only [List.cons_append, List.append_assoc, List.nil_append]
      rw [lexObjTailF, skipWs_cons_not_ws _ _ (by decide)]
      try dsimp only
      rw [if_neg (show ¬(',' : Char) = '\x7d' from by decide), if_pos rfl]
      rw [skipWs_cons_ws '\n' _ (by decide),
        skipWs_ws_append _ _ (repeatStr_indent_ws (d + 1)),
        skipWs_cons_not_ws '"' _ (by decide)]
      simp only []
      rw [lexString_quote]
      try dsimp only
      rw [skipWs_cons_not_ws ':' _ (by decide)]
      simp only []
      have hv : lexValueF f (' ' :: ((writeValue (lookupD m k) (childOrderOf o k)
              "  " (d + 1)).data
            ++ ((if ks.isEmpty then ([] : List Char) else [','])
            ++ '\n' :: ((writeFields m o ks "  " d).data
            ++ ((repeatStr "  " d).data ++ '\x7d' :: tl)))))
          = (tokensOfValue (lookupD m k) (childOrderOf o k),
             some ((if ks.isEmpty then ([] : List Char) else [','])
               ++ '\n' :: ((writeFields m o ks "  " d).data
               ++ ((repeatStr "  " d).data ++ '\x7d' :: tl)))) := by
        cases f with
        | zero => omega
        | succ f2 =>
          rw [lexValueF_cons_ws ' ' _ _ (by decide)]
          exact lexA_value (lookupD m k) (childOrderOf o k) (d + 1) _ (f2 + 1)
            (postValueOk_sep ks.isEmpty _) (by omega)
      rw [hv]
      try dsimp only
      rw [lexA_objTail m o ks d tl f (by omega)]
      simp [tokensOfFields, List.append_assoc]
termination_by (3 * sizeOf m + 1, keys.length)
decreasing_by
all_goals subst_vars
· have h := sizeOf_lookupD m k
  exact Prod.Lex.left _ _ (by omega)
· exact Prod.Lex.right _ (by simp)

/-- Lexing the continuation of a multi-line array body after an element: a
comma and the next element per line, or the closing bracket at the end. -/
theorem lexA_arrLines (arr : List JValue) (d : Nat) (tl : List Char) (fuel : Nat)
    (hf : (writeArrayLines arr "  " d).data.length + 1 ≤ fuel) :
    lexArrTailF fuel
      ((if arr.isEmpty then ([] : List Char) else [','])
        ++ '\n' :: ((writeArrayLines arr "  " d).data
        ++ ((repeatStr "  " d).data ++ ']' :: tl)))
      = (tokensOfElems arr ++ [JToken.rbrack], some tl) := by
  cases arr with
  | nil =>
    cases fuel with
    | zero => omega
    | succ f =>
      rw [show (if ([] : List JValue).isEmpty then ([] : List Char) else [','])
          = ([] : List Char) from rfl,
        List.nil_append, writeArrayLines_nil_data, List.nil_append]
      rw [lexArrTailF, skipWs_cons_ws _ _ (by decide),
        skipWs_ws_append _ _ (repeatStr_indent_ws d),
        skipWs_cons_not_ws _ _ (by decide)]
      try dsimp only
      rw [if_pos rfl]
      simp [tokensOfElems]
  | cons v1 vs =>
    have hwl := writeArrayLines_cons_data v1 vs d
    have hlen := hf
    rw [hwl] at hlen
    simp only [List.length_append, List.length_cons] at hlen
    cases fuel with
    | zero => omega
    | succ f =>
      rw [if_neg (show ¬((v1 :: vs).isEmpty = true) by simp), hwl]
      simp only [List.cons_append, List.append_assoc, List.nil_append]
      rw [lexArrTailF, skipWs_cons_not_ws _ _ (by decide)]
      try dsimp only
      rw [if_neg (show ¬(',' : Char) = ']' from by decide), if_pos rfl]
      cases f with
      | zero => omega
      | succ f2 =>
        have hv : lexValueF (f2 + 1) ('\n' :: ((repeatStr "  " (d + 1)).data
              ++ ((writeValue v1 none "  " (d + 1)).data
              ++ ((if vs.isEmpty then ([] : List Char) else [','])
              ++ '\n' :: ((writeArrayLines vs "  " d).data
              ++ ((repeatStr "  " d).data ++ ']' :: tl))))))
            = (tokensOfValue v1 none,
               some ((if vs.isEmpty then ([] : List Char) else [','])
                 ++ '\n' :: ((writeArrayLines vs "  " d).data
                 ++ ((repeatStr "  " d).data ++ ']' :: tl)))) := by
          rw [lexValueF_cons_ws '\n' _ _ (by decide),
            lexValueF_ws_append _ _ _ (repeatStr_indent_ws (d + 1))]
          exact lexA_value v1 none (d + 1) _ (f2 + 1)
            (postValueOk_sep vs.isEmpty _) (by omega)
        rw [hv]
        try dsimp only
        rw [lexA_arrLines vs d tl (f2 + 1) (by omega)]
        simp [tokensOfElems, List.append_assoc]
termination_by (3 * sizeOf arr + 1, 0)
decreasing_by
all_goals subst_vars
all_goals exact Prod.Lex.left _ _ (by
  simp only [List.cons.sizeOf_spec]
  omega)

end

mutual

/-- The key order that `decodeValueOrder` recovers from the token stream of
`writeValue v o`: objects yield their emitted key sequence with the orders
recursively recovered for object-valued members; everything else yields no
order. -/
def orderOfValue : JValue → Option KeyOrder → Option KeyOrder
  | JValue.jobj m, o =>
      some (KeyOrder.mk (orderedKeysForMap m o)
        (childrenOfFields m o (orderedKeysForMap m o) []))
  | _, _ => none
termination_by v _ => (3 * sizeOf v, 0)

/-- The children map accumulated by `decodeObjectOrder` over the members in
emission order: object-valued members insert their recovered order. -/
def childrenOfFields (m : List (String × JValue)) (o : Option KeyOrder) :
    List String → List (String × KeyOrder) → List (String × KeyOrder)
  | [], acc => acc
  | k :: rest, acc =>
      childrenOfFields m o rest
        (match orderOfValue (lookupD m k) (childOrderOf o k) with
         | some c => mapSet acc k c
         | none => acc)
termination_by keys _ => (3 * sizeOf m + 1, keys.length)
decreasing_by
all_goals first
  | exact Prod.Lex.right _ (by simp)
  | (have h := sizeOf_lookupD m k
     exact Prod.Lex.left _ _ (by omega))

end

theorem MoreTok_rbrace (rest : List JToken) : MoreTok (JToken.rbrace :: rest) = false := rfl

theorem MoreTok_rbrack (rest : List JToken) : MoreTok (JToken.rbrack :: rest) = false := rfl

theorem MoreTok_tstr (k : String) (rest : List JToken) :
    MoreTok (JToken.tstr k :: rest) = true := rfl

theorem MoreTok_tokensOfValue (v : JValue) (o : Option KeyOrder) (rest : List JToken) :
    MoreTok (tokensOfValue v o ++ rest) = true := by
  cases v <;> simp only [tokensOfValue, List.cons_append] <;> rfl

theorem tokensOfValue_length_pos (v : JValue) (o : Option KeyOrder) :
    1 ≤ (tokensOfValue v o).length := by
  cases v <;> simp [tokensOfValue]

theorem orderOfValue_scalar (v : JValue) (hv : isContainer v = false) (o : Option KeyOrder) :
    orderOfValue v o = none := by
  cases v <;> simp_all [isContainer, orderOfValue]

theorem decB_scalar (v : JValue) (hv : isContainer v = false) (o : Option KeyOrder)
    (after : List JToken) (fuel : Nat) (hf : 1 ≤ fuel) :
    decodeValueOrderF fuel (tokensOfValue v o ++ after) = (none, after, false) := by
  cases fuel with
  | zero => omega
  | succ f =>
    cases v with
    | jnull =>
      rw [show tokensOfValue JValue.jnull o = [JToken.tother] from by simp [tokensOfValue]]
      rw [List.singleton_append, decodeValueOrderF] <;> exact fun h => JToken.noConfusion h
    | jbool b =>
      rw [show tokensOfValue (JValue.jbool b) o = [JToken.tother] from by
        simp [tokensOfValue]]
      rw [List.singleton_append, decodeValueOrderF] <;> exact fun h => JToken.noConfusion h
    | jnum n =>
      rw [show tokensOfValue (JValue.jnum n) o = [JToken.tother] from by
        simp [tokensOfValue]]
      rw [List.singleton_append, decodeValueOrderF] <;> exact fun h => JToken.noConfusion h
    | jstr s =>
      rw [show tokensOfValue (JValue.jstr s) o = [JToken.tstr s] from by
        simp [tokensOfValue]]
      rw [List.singleton_append, decodeValueOrderF] <;> exact fun h => JToken.noConfusion h
    | jarr a => simp [isContainer] at hv
    | jobj m => simp [isContainer] at hv

mutual

/-- Decoding the token stream of a rendered value consumes exactly its
tokens, reports no error, and recovers `orderOfValue`. -/
theorem decB_value (v : JValue) (o : Option KeyOrder) (after : List JToken) (fuel : Nat)
    (hf : (tokensOfValue v o).length ≤ fuel) :
    decodeValueOrderF fuel (tokensOfValue v o ++ after)
      = (orderOfValue v o, after, false) := by
  cases v with
  | jnull =>
    rw [decB_scalar JValue.jnull rfl o after fuel
      (le_trans (tokensOfValue_length_pos _ o) hf)]
    rw [orderOfValue_scalar JValue.jnull rfl o]
  | jbool b =>
    rw [decB_scalar (JValue.jbool b) rfl o after fuel
      (le_trans (tokensOfValue_length_pos _ o) hf)]
    rw [orderOfValue_scalar (JValue.jbool b) rfl o]
  | jnum n =>
    rw [decB_scalar (JValue.jnum n) rfl o after fuel
      (le_trans (tokensOfValue_length_pos _ o) hf)]
    rw [orderOfValue_scalar (JValue.jnum n) rfl o]
  | jstr s =>
    rw [decB_scalar (JValue.jstr s) rfl o after fuel
      (le_trans (tokensOfValue_length_pos _ o) hf)]
    rw [orderOfValue_scalar (JValue.jstr s) rfl o]
  | jobj m =>
    have ht : tokensOfValue (JValue.jobj m) o
        = JToken.lbrace :: (tokensOfFields m o (orderedKeysForMap m o)
            ++ [JToken.rbrace]) := by
      simp [tokensOfValue]
    rw [ht] at hf ⊢
    simp only [List.length_cons, List.length_append] at hf
    cases fuel with
    | zero => omega
    | succ f =>
      simp only [List.cons_append, List.append_assoc, List.nil_append]
      rw [decodeValueOrderF]
      try dsimp only
      rw [decB_fields m o (orderedKeysForMap m o) [] [] after f (by simp at hf; omega)]
      simp [orderOfValue]
  | jarr a =>
    have ht : tokensOfValue (JValue.jarr a) o
        = JToken.lbrack :: (tokensOfElems a ++ [JToken.rbrack]) := by
      simp [tokensOfValue]
    rw [ht] at hf ⊢
    simp only [List.length_cons, List.length_append] at hf
    cases fuel with
    | zero => omega
    | succ f =>
      simp only [List.cons_append, List.append_assoc, List.nil_append]
      rw [decodeValueOrderF]
      try dsimp only
      rw [decB_elems a after f (by simp at hf; omega)]
      simp [orderOfValue]
termination_by (3 * sizeOf v, 0)
decreasing_by
all_goals subst_vars
all_goals exact Prod.Lex.left _ _ (by
  simp only [JValue.jobj.sizeOf_spec, JValue.jarr.sizeOf_spec]
  omega)

/-- Decoding an object body: each member key is appended in order, object
children are recorded, and the closing brace ends the object cleanly. -/
theorem decB_fields (m : List (String × JValue)) (o : Option KeyOrder)
    (keys : List String) (ks0 : List String) (ch0 : List (String × KeyOrder))
    (after : List JToken) (fuel : Nat)
    (hf : (tokensOfFields m o keys).length + 1 ≤ fuel) :
    decodeObjectLoopF fuel ks0 ch0 (tokensOfFields m o keys ++ JToken.rbrace :: after)
      = (KeyOrder.mk (ks0 ++ keys) (childrenOfFields m o keys ch0), after, false) := by
  cases keys with
  | nil =>
    rw [tokensOfFields_nil] at hf ⊢
    simp only [List.length_nil] at hf
    cases fuel with
    | zero => omega
    | succ f =>
      simp only [List.nil_append]
      rw [decodeObjectLoopF, if_neg (show ¬(MoreTok (JToken.rbrace :: after) = true) by
        simp [MoreTok_rbrace])]
      try dsimp only
      simp [childrenOfFields]
      exact fun key h => JToken.noConfusion h
  | cons k ks =>
    have ht : tokensOfFields m o (k :: ks)
        = JToken.tstr k :: (tokensOfValue (lookupD m k) (childOrderOf o k)
            ++ tokensOfFields m o ks) := by
      simp [tokensOfFields]
    rw [ht] at hf ⊢
    simp only [List.length_cons, List.length_append] at hf
    cases fuel with
    | zero => omega
    | succ f =>
      simp only [List.cons_append, List.append_assoc]
      rw [decodeObjectLoopF, if_pos (MoreTok_tstr k _)]
      try dsimp only
      rw [decB_value (lookupD m k) (childOrderOf o k)
        (tokensOfFields m o ks ++ JToken.rbrace :: after) f (by omega)]
      try dsimp only
      rw [if_neg (show ¬(false = true) from Bool.false_ne_true)]
      cases horder : orderOfValue (lookupD m k) (childOrderOf o k) with
      | none =>
        try dsimp only
        rw [decB_fields m o ks (ks0 ++ [k]) ch0 after f (by omega)]
        simp [childrenOfFields, horder]
      | some c =>
        try dsimp only
        rw [decB_fields m o ks (ks0 ++ [k]) (mapSet ch0 k c) after f (by omega)]
        simp [childrenOfFields, horder]
termination_by (3 * sizeOf m + 1, keys.length)
decreasing_by
all_goals subst_vars
all_goals first
  | exact Prod.Lex.right _ (by simp)
  | (have h := sizeOf_lookupD m k
     exact Prod.Lex.left _ _ (by omega))

/-- Decoding an array body: every element is skipped without error and
without recording anything, and the closing bracket ends the array. -/
theorem decB_elems (a : List JValue) (after : List JToken) (fuel : Nat)
    (hf : (tokensOfElems a).length + 1 ≤ fuel) :
    decodeArrayLoopF fuel (tokensOfElems a ++ JToken.rbrack :: after)
      = (after, false) := by
  cases a with
  | nil =>
    rw [show tokensOfElems [] = [] from by simp [tokensOfElems]] at hf ⊢
    simp only [List.length_nil] at hf
    cases fuel with
    | zero => omega
    | succ f =>
      simp only [List.nil_append]
      rw [decodeArrayLoopF, if_neg (show ¬(MoreTok (JToken.rbrack :: after) = true) by
        simp [MoreTok_rbrack])]
      try dsimp only
  | cons v vs =>
    have ht : tokensOfElems (v :: vs) = tokensOfValue v none ++ tokensOfElems vs := by
      simp [tokensOfElems]
    rw [ht] at hf ⊢
    simp only [List.length_append] at hf
    have hvp := tokensOfValue_length_pos v none
    cases fuel with
    | zero => omega
    | succ f =>
      simp only [List.append_assoc]
      rw [decodeArrayLoopF, if_pos (MoreTok_tokensOfValue v none _)]
      try dsimp only
      rw [decB_value v none (tokensOfElems vs ++ JToken.rbrack :: after) f (by omega)]
      try dsimp only
      rw [decB_elems vs after f (by omega)]
      intro rest h
      have hmt := MoreTok_tokensOfValue v none (tokensOfElems vs ++ JToken.rbrack :: after)
      rw [h, MoreTok_rbrack] at hmt
      exact Bool.noConfusion hmt
termination_by (3 * sizeOf a + 1, 0)
decreasing_by
all_goals subst_vars
all_goals exact Prod.Lex.left _ _ (by
  simp only [List.cons.sizeOf_spec]
  omega)

end

theorem orderedKeys_mem (m : List (String × JValue)) (o : Option KeyOrder) (k : String)
    (hk : k ∈ orderedKeysForMap m o) : memKey m k = true := by
  cases o with
  | none =>
    exact (memKey_iff_mem_keysOf m k).mpr ((mem_sortStrings k _).mp hk)
  | some o2 =>
    rcases List.mem_append.mp hk with h | h
    · exact (List.mem_filter.mp h).2
    · have h2 := (mem_sortStrings k _).mp h
      exact (memKey_iff_mem_keysOf m k).mpr (List.mem_filter.mp h2).1

theorem orderedKeys_covers (m : List (String × JValue)) (o : Option KeyOrder) (k : String)
    (hk : k ∈ keysOf m) : k ∈ orderedKeysForMap m o := by
  cases o with
  | none => exact (mem_sortStrings k _).mpr hk
  | some o2 =>
    by_cases hc : (o2.keys.filter (fun k2 => memKey m k2)).contains k = true
    · exact List.mem_append.mpr (Or.inl ((contains_iff_mem _ _).mp hc))
    · refine List.mem_append.mpr (Or.inr ?_)
      refine (mem_sortStrings k _).mpr (List.mem_filter.mpr ⟨hk, ?_⟩)
      simp only [Bool.not_eq_true] at hc
      rw [hc]
      rfl

theorem orderedKeys_stable (m : List (String × JValue)) (o : Option KeyOrder)
    (ch : List (String × KeyOrder)) :
    orderedKeysForMap m (some (KeyOrder.mk (orderedKeysForMap m o) ch))
      = orderedKeysForMap m o := by
  have hkept : (KeyOrder.mk (orderedKeysForMap m o) ch).keys.filter (fun k => memKey m k)
      = orderedKeysForMap m o := by
    apply List.filter_eq_self.mpr
    intro k hk
    exact orderedKeys_mem m o k hk
  show (KeyOrder.mk (orderedKeysForMap m o) ch).keys.filter (fun k => memKey m k)
      ++ sortStrings ((keysOf m).filter
        (fun k => !(((KeyOrder.mk (orderedKeysForMap m o) ch).keys.filter
          (fun k2 => memKey m k2)).contains k))) = _
  rw [hkept]
  have hnew : (keysOf m).filter (fun k => !((orderedKeysForMap m o).contains k)) = [] := by
    apply List.eq_nil_iff_forall_not_mem.mpr
    intro k hk
    have h1 := (List.mem_filter.mp hk).1
    have h2 := (List.mem_filter.mp hk).2
    have h3 := (contains_iff_mem _ _).mpr (orderedKeys_covers m o k h1)
    rw [h3] at h2
    exact Bool.noConfusion h2
  rw [hnew]
  simp [sortStrings]

theorem lookupKV_mapSet {α : Type} (acc : List (String × α)) (k2 k : String) (c : α) :
    lookupKV (mapSet acc k2 c) k = if k2 = k then some c else lookupKV acc k := by
  induction acc with
  | nil =>
    by_cases h : k2 = k <;> simp [mapSet, lookupKV, h]
  | cons kv rest ih =>
    obtain ⟨k3, w⟩ := kv
    by_cases h : k3 = k2
    · subst h
      by_cases h2 : k3 = k <;> simp [mapSet, lookupKV, h2]
    · by_cases h2 : k3 = k
      · subst h2
        simp [mapSet, lookupKV, h]
        rw [if_neg (fun hcon => h hcon.symm)]
      · simp [mapSet, lookupKV, h, h2, ih]

theorem lookup_childrenOfFields (m : List (String × JValue)) (o : Option KeyOrder)
    (k : String) (keys : List String) (acc : List (String × KeyOrder)) :
    lookupKV (childrenOfFields m o keys acc) k
      = match orderOfValue (lookupD m k) (childOrderOf o k) with
        | some c => if k ∈ keys then some c else lookupKV acc k
        | none => lookupKV acc k := by
  induction keys generalizing acc with
  | nil =>
    cases horder : orderOfValue (lookupD m k) (childOrderOf o k) <;>
      simp [childrenOfFields]
  | cons k2 ks ih =>
    rw [show childrenOfFields m o (k2 :: ks) acc
        = childrenOfFields m o ks
            (match orderOfValue (lookupD m k2) (childOrderOf o k2) with
             | some c => mapSet acc k2 c
             | none => acc) from by rw [childrenOfFields]]
    rw [ih]
    by_cases hk : k2 = k
    · subst hk
      cases horder : orderOfValue (lookupD m k2) (childOrderOf o k2) with
      | none => simp [List.mem_cons]
      | some c =>
        by_cases hmem : k2 ∈ ks <;>
          simp [List.mem_cons, hmem, lookupKV_mapSet]
    · have hk2 : ¬(k = k2) := fun h => hk h.symm
      cases horder : orderOfValue (lookupD m k2) (childOrderOf o k2) with
      | none =>
        cases horder2 : orderOfValue (lookupD m k) (childOrderOf o k) <;>
          simp [List.mem_cons, hk2]
      | some c =>
        cases horder2 : orderOfValue (lookupD m k) (childOrderOf o k) <;>
          simp [List.mem_cons, lookupKV_mapSet, hk, hk2]

theorem childOrderOf_children (m : List (String × JValue)) (o : Option KeyOrder)
    (k : String) (hk : k ∈ orderedKeysForMap m o) :
    childOrderOf (some (KeyOrder.mk (orderedKeysForMap m o)
        (childrenOfFields m o (orderedKeysForMap m o) []))) k
      = orderOfValue (lookupD m k) (childOrderOf o k) := by
  show lookupKV (childrenOfFields m o (orderedKeysForMap m o) []) k = _
  rw [lookup_childrenOfFields]
  cases horder : orderOfValue (lookupD m k) (childOrderOf o k) <;>
    simp [hk, lookupKV]

theorem writeValue_scalar (v : JValue) (h : isContainer v = false) (o : Option KeyOrder)
    (ind : String) (d : Nat) : writeValue v o ind d = writeScalar v := by
  cases v <;> first
    | (rw [writeValue] <;> exact fun x h2 => JValue.noConfusion h2)
    | simp [isContainer] at h

mutual

/-- Re-serializing a value with the key order recovered from its own
rendering reproduces the rendering with the original order. -/
theorem stepC_value (v : JValue) (o : Option KeyOrder) (d : Nat) :
    writeValue v (orderOfValue v o) "  " d = writeValue v o "  " d := by
  cases v with
  | jnull =>
    rw [writeValue_scalar JValue.jnull rfl, writeValue_scalar JValue.jnull rfl]
  | jbool b =>
    rw [writeValue_scalar (JValue.jbool b) rfl, writeValue_scalar (JValue.jbool b) rfl]
  | jnum n =>
    rw [writeValue_scalar (JValue.jnum n) rfl, writeValue_scalar (JValue.jnum n) rfl]
  | jstr s =>
    rw [writeValue_scalar (JValue.jstr s) rfl, writeValue_scalar (JValue.jstr s) rfl]
  | jarr a =>
    rw [show writeValue (JValue.jarr a) (orderOfValue (JValue.jarr a) o) "  " d
        = writeArray a "  " d from by rw [writeValue]]
    rw [show writeValue (JValue.jarr a) o "  " d = writeArray a "  " d from by
      rw [writeValue]]
  | jobj m =>
    have h1 : writeValue (JValue.jobj m) (orderOfValue (JValue.jobj m) o) "  " d
        = writeObject m (orderOfValue (JValue.jobj m) o) "  " d := by
      rw [writeValue]
    have h2 : writeValue (JValue.jobj m) o "  " d = writeObject m o "  " d := by
      rw [writeValue]
    have horder : orderOfValue (JValue.jobj m) o
        = some (KeyOrder.mk (orderedKeysForMap m o)
            (childrenOfFields m o (orderedKeysForMap m o) [])) := by
      simp [orderOfValue]
    rw [h1, h2, horder, writeObject, writeObject]
    by_cases hm : m.isEmpty = true
    · rw [if_pos hm, if_pos hm]
    · rw [if_neg hm, if_neg hm, orderedKeys_stable]
      rw [stepC_fields m o
        (some (KeyOrder.mk (orderedKeysForMap m o)
          (childrenOfFields m o (orderedKeysForMap m o) [])))
        (orderedKeysForMap m o) d
        (fun k hk => childOrderOf_children m o k hk)]
termination_by (3 * sizeOf v, 0)
decreasing_by
all_goals subst_vars
all_goals exact Prod.Lex.left _ _ (by
  simp only [JValue.jobj.sizeOf_spec]
  omega)

/-- Field-loop congruence: if the replacement order assigns every listed key
the child order recovered from its rendered member, the rendered members
coincide. -/
theorem stepC_fields (m : List (String × JValue)) (o o2 : Option KeyOrder)
    (keys : List String) (d : Nat)
    (hch : ∀ k ∈ keys, childOrderOf o2 k
      = orderOfValue (lookupD m k) (childOrderOf o k)) :
    writeFields m o2 keys "  " d = writeFields m o keys "  " d := by
  cases keys with
  | nil => rw [writeFields, writeFields]
  | cons k ks =>
    have h1 : childOrderOf o2 k = orderOfValue (lookupD m k) (childOrderOf o k) :=
      hch k (by simp)
    have h2 : writeValue (lookupD m k) (childOrderOf o2 k) "  " (d + 1)
        = writeValue (lookupD m k) (childOrderOf o k) "  " (d + 1) := by
      rw [h1]
      exact stepC_value (lookupD m k) (childOrderOf o k) (d + 1)
    have h3 : writeFields m o2 ks "  " d = writeFields m o ks "  " d :=
      stepC_fields m o o2 ks d (fun k2 hk2 => hch k2 (List.mem_cons_of_mem k hk2))
    rw [writeFields]
    rw [show writeFields m o (k :: ks) "  " d
        = repeatStr "  " (d + 1) ++ jsonQuote k ++ ": "
          ++ writeValue (lookupD m k) (childOrderOf o k) "  " (d + 1)
          ++ (if ks.isEmpty then "" else ",") ++ "\n"
          ++ writeFields m o ks "  " d from by rw [writeFields]]
    rw [h2, h3]
termination_by (3 * sizeOf m + 1, keys.length)
decreasing_by
all_goals subst_vars
all_goals first
  | exact Prod.Lex.right _ (by simp)
  | (have h := sizeOf_lookupD m k
     exact Prod.Lex.left _ _ (by omega))

end
